import Mathlib

/-!
Shallow embedding of the mixed-precision CMSIS-NN convolution sources

  CMSIS/NN/Source/ConvolutionFunctions/arm_convolve_HWC_u2_u2_u8_icn.c
  CMSIS/NN/Source/ConvolutionFunctions/arm_convolve_HWC_u8_u8_u2_PACT_CH_thr.c
  CMSIS/NN/Source/ConvolutionFunctions/arm_nn_mat_mult_kernel_reordered_u2_int16_u4_PACT_CH_thr.c

Machine integers are embedded as Nat/Int with explicit wraparound where the C
types wrap: `i32`/`i16`/`i8` wrap a value into the signed 32/16/8-bit range,
byte loads reduce modulo 256, and the DSP intrinsics (__SMLAD, __SSUB16,
__USAT, __HI_SMULL) are given their documented arithmetic meaning on lane
values.  Memory buffers are total functions from indices to cell values; a C
store becomes a pointwise function update.

Helper routines that the three files call but that are not part of this
source excerpt (the sub-byte codecs `arm_u2_to_int16_reordered`,
`arm_u8_to_int16_reordered`, the weight loaders `read_and_pad_reordered_*`,
the requantizers `__int16_to_u4`, `__n_zero_negative_normalization`, and the
two bulk matrix kernels the convolution drivers dispatch to) are modelled
from the specification; each such definition carries a doc comment starting
with "Modelled from the spec:".
-/

/-- Wrap an integer into the signed 32-bit range, the value a C `int32_t`
holds after a wrapping computation. -/
def i32 (x : Int) : Int := (x + 2147483648) % 4294967296 - 2147483648

/-- Wrap an integer into the signed 16-bit range (an `int16_t` cell or a
16-bit SIMD lane). -/
def i16 (x : Int) : Int := (x + 32768) % 65536 - 32768

/-- Wrap an integer into the signed 8-bit range (an `int8_t` cell). -/
def i8 (x : Int) : Int := (x + 128) % 256 - 128

/-- ARM `__USAT(x, bits)`: saturate a signed value into `[0, 2^bits - 1]`. -/
def usat (x : Int) (bits : Nat) : Int := max 0 (min x (2 ^ bits - 1))

/-- C cast of a signed integer value to `uint8_t`. -/
def u8c (x : Int) : Nat := (x % 256).toNat

/-- ARM `__SMLAD(a, b, acc)` on lane values: both 16-bit lane products are
added into the 32-bit accumulator, which wraps. -/
def smlad (a1 b1 a2 b2 acc : Int) : Int := i32 (acc + a1 * b1 + a2 * b2)

/-- A chain of `cnt` __SMLAD steps: step `t` multiplies lanes
`a (u+2t), a (u+2t+1)` against `b (v+2t), b (v+2t+1)` and accumulates into a
wrapping 32-bit sum.  This is the dependency chain of one accumulator in the
unrolled multiply-accumulate loops of the sources (the C code interleaves the
independent chains of the four accumulators for instruction scheduling; each
single accumulator's chain is exactly this sequence). -/
def macChain (a b : Nat → Int) : Nat → Nat → Nat → Int → Int
  | _, _, 0, acc => acc
  | u, v, cnt+1, acc =>
      macChain a b (u+2) (v+2) cnt (smlad (a u) (b v) (a (u+1)) (b (v+1)) acc)

/-- Exact (unwrapped) dot product of `cnt` lane pairs starting at offsets
`u` and `v`: the mathematical sum the specification's "dot product over the
columns" denotes. -/
def dotAdj (a b : Nat → Int) : Nat → Nat → Nat → Int
  | _, _, 0 => 0
  | u, v, cnt+1 => a u * b v + dotAdj a b (u+1) (v+1) cnt

/-- Element `e` of a packed 2-bit tensor stored in the byte array `w`:
element slot `e % 4` of byte `e / 4`, least-significant bits first (the
in-byte order used by the leftover unpackers in the sources, e.g. the
`__USAT(*pA, 2)` / `__ROR` switch of arm_convolve_HWC_u8_u8_u2_PACT_CH_thr). -/
def u2elemN (w : Nat → Nat) (e : Nat) : Nat := w (e / 4) % 256 / 4 ^ (e % 4) % 4

/-- Pointwise store into a byte buffer. -/
def writeN (f : Nat → Nat) (k v : Nat) : Nat → Nat := fun j => if j = k then v else f j

/-! ## arm_nn_mat_mult_kernel_reordered_u2_int16_u4_PACT_CH_thr

The weight operand `pA` is consumed through `read_and_pad_reordered_u2`,
which is not part of this excerpt.  Modelled from the spec: the loader yields
the packed 2-bit weight values in the fixed reordered consumption order that
matches the reordered layout of `pInBuffer`, so the weight operand is
embedded as the element stream `wA : Nat → Nat` (value reduced mod 4 at use),
indexed in consumption order; pointer arithmetic on `pA` (4 elements per
byte) is tracked in element units. -/

/-- Modelled from the spec: `__int16_to_u4` (not in this excerpt) compares
its argument against the ascending 16-entry threshold ladder starting at
`thr base` and emits the ladder index (the number of ladder entries not
exceeding the argument) as the quantized value. -/
def u4Ladder (x : Int) (thr : Nat → Int) (base : Nat) : Int :=
  (((List.range 16).countP (fun k => decide (i16 (thr (base + k)) ≤ x)) : Nat) : Int)

/-- The four accumulators of one row-pair iteration of
arm_nn_mat_mult_kernel_reordered_u2_int16_u4_PACT_CH_thr: rows `i`, `i+1`
(weights at element cursors `eA` and `eA + 4*(numCol_A >> 2)`), patches 1 and
2 (buffer offsets 0 and `numCol_A`), each seeded with the row bias and
accumulated over `numCol_A >> 4` blocks of 16 columns (8 __SMLAD steps per
block); the `#if 0`-disabled leftover loop contributes nothing. -/
def u4PairSums (wA : Nat → Nat) (buf : Nat → Int) (bias : Nat → Int) (zA : Nat → Nat)
    (n i eA : Nat) : Int × Int × Int × Int :=
  let aw : Nat → Int := fun j => i16 ((wA j % 4 : Nat) - (zA i % 256 : Nat) : Int)
  let aw2 : Nat → Int := fun j => i16 ((wA j % 4 : Nat) - (zA (i+1) % 256 : Nat) : Int)
  let xb : Nat → Int := fun j => i16 (buf j)
  let eA2 := eA + 4 * (n >>> 2)
  (macChain aw xb eA 0 (8 * (n >>> 4)) (i32 (bias i)),
   macChain aw xb eA n (8 * (n >>> 4)) (i32 (bias i)),
   macChain aw2 xb eA2 0 (8 * (n >>> 4)) (i32 (bias (i+1))),
   macChain aw2 xb eA2 n (8 * (n >>> 4)) (i32 (bias (i+1))))

/-- The byte written at `*pOut++` for the row pair at `i`: the patch-1
outputs of channels `i` (requantized through the ladder at base `i << 4`,
stored in the low nibble) and `i+1` (ladder base `(i+1) << 4`, high nibble),
as in `*pOut++ = ( __USAT(sum,4) | ((__USAT(sum3,4) << 4 ) & 0xF0 ))`. -/
def u4PairByte1 (wA : Nat → Nat) (buf : Nat → Int) (bias : Nat → Int) (zA : Nat → Nat)
    (thr : Nat → Int) (n i eA : Nat) : Nat :=
  (usat (u4Ladder (i16 (u4PairSums wA buf bias zA n i eA).1) thr (i <<< 4)) 4).toNat |||
    (((usat (u4Ladder (i16 (u4PairSums wA buf bias zA n i eA).2.2.1) thr
      ((i+1) <<< 4)) 4).toNat <<< 4) &&& 0xF0)

/-- The byte written at `*pOut2++` for the row pair at `i` (the patch-2
outputs, same packing). -/
def u4PairByte2 (wA : Nat → Nat) (buf : Nat → Int) (bias : Nat → Int) (zA : Nat → Nat)
    (thr : Nat → Int) (n i eA : Nat) : Nat :=
  (usat (u4Ladder (i16 (u4PairSums wA buf bias zA n i eA).2.1) thr (i <<< 4)) 4).toNat |||
    (((usat (u4Ladder (i16 (u4PairSums wA buf bias zA n i eA).2.2.2) thr
      ((i+1) <<< 4)) 4).toNat <<< 4) &&& 0xF0)

/-- Row loop of the u4 kernel, `cnt` iterations remaining (`i` stepping by
2): requantize the four sums through the per-channel ladders after an
`(int16_t)` cast, store the packed patch-1 byte at `*pOut++` and the packed
patch-2 byte at `*pOut2++`, then skip the row computed with `pA2`
(`pA += numCol_A >> 2` bytes, i.e. `4*(n >>> 2)` elements). -/
def u4RowLoopGo (wA : Nat → Nat) (buf : Nat → Int) (bias : Nat → Int) (zA : Nat → Nat)
    (thr : Nat → Int) (n : Nat) :
    Nat → Nat → Nat → Nat → Nat → (Nat → Nat) → (Nat → Nat) × Nat
  | 0, _, _, p, _, out => (out, p)
  | cnt+1, i, eA, p, p2, out =>
      u4RowLoopGo wA buf bias zA thr n cnt (i+2) (eA + 16 * (n >>> 4) + 4 * (n >>> 2))
        (p+1) (p2+1)
        (writeN (writeN out p (u4PairByte1 wA buf bias zA thr n i eA))
          p2 (u4PairByte2 wA buf bias zA thr n i eA))

/-- arm_nn_mat_mult_kernel_reordered_u2_int16_u4_PACT_CH_thr: `pOut2` starts
`ch_im_out >> 1` bytes after `pOut`; the row loop runs while `i < ch_im_out`
stepping by 2 (`(ch+1) >>> 1` iterations); the function returns the output
map and the advanced output pointer (`pOut += ch_im_out >> 1` after the
loop). -/
def arm_nn_mat_mult_kernel_reordered_u2_int16_u4_PACT_CH_thr
    (wA : Nat → Nat) (buf : Nat → Int) (ch n : Nat) (bias : Nat → Int)
    (zA : Nat → Nat) (thr : Nat → Int) (out : Nat → Nat) (p0 : Nat) :
    (Nat → Nat) × Nat :=
  let r := u4RowLoopGo wA buf bias zA thr n ((ch + 1) >>> 1) 0 0 p0 (p0 + (ch >>> 1)) out
  (r.1, r.2 + (ch >>> 1))

/-- The indices at which one run of the u4-kernel row loop reads the
per-output-channel arrays `bias` and `z_a` (and, scaled by 16, the bases of
the `thresholds` ladders): iteration at row `i` reads `i` and, unconditionally,
`i + 1`. -/
def u4RowIdx : Nat → Nat → List Nat
  | 0, _ => []
  | cnt+1, i => i :: (i+1) :: u4RowIdx cnt (i+2)

/-! ## Memory state of the convolution drivers

Every buffer a convolution call can touch is a field of `ConvState`; a C
store through a pointer becomes an update of the corresponding field.  `imIn`
is indexed by `Int` because the im2col offset arithmetic of the sources can
produce negative offsets.  Cell reads apply the wrap of the cell's C type
(`% 256` for byte arrays, `i16`/`i32`/`i8` for the typed arrays). -/
structure ConvState where
  imIn : Int → Nat
  wt : Nat → Nat
  bias : Nat → Int
  mZero : Nat → Int
  nZero : Nat → Int
  zWtArr : Nat → Nat
  thresholds : Nat → Int
  bufferA : Nat → Int
  imOut : Nat → Nat
  bufferB : Nat → Nat

/-- Store `n` int16 working values `f 0, …, f (n-1)` into `bufferA` starting
at cell `dst` (the effect of one codec call or one `memset`, which are single
atomic calls in the sources). -/
def bufWriteSeq (s : ConvState) (dst n : Nat) (f : Nat → Int) : ConvState :=
  { s with bufferA := fun j => if dst ≤ j ∧ j < dst + n then f (j - dst) else s.bufferA j }

/-- Store `n` output bytes `g 0, …, g (n-1)` into `imOut` starting at byte
`dst`. -/
def outWriteSeq (s : ConvState) (dst n : Nat) (g : Nat → Nat) : ConvState :=
  { s with imOut := fun j => if dst ≤ j ∧ j < dst + n then g (j - dst) else s.imOut j }

/-- Local cursor state of a convolution driver: `pB` is the fill position in
`bufferA` (in int16 cells), `pOut` the output position in `Im_out` (in
bytes). -/
structure Loc where
  pB : Nat
  pOut : Nat
  s : ConvState

/-- Integer interval `[a, b)` as an ascending list, the iteration space of a
C `for` loop with an `Int`-valued counter. -/
def intRange (a b : Int) : List Int := (List.range (b - a).toNat).map (fun t => a + (t : Int))

/-- Arguments of arm_convolve_HWC_u2_u2_u8_icn (the scalar parameters; the
array parameters live in `ConvState`). -/
structure IcnArgs where
  dimIn : Nat
  chIn : Nat
  chOut : Nat
  dimK : Nat
  padL : Nat
  padR : Nat
  padT : Nat
  padB : Nat
  stride : Nat
  dimOut : Nat
  zIn : Nat
  zWt : Nat
  zOut : Nat

/-- Arguments of arm_convolve_HWC_u8_u8_u2_PACT_CH_thr (its weight offset
`z_wt` is a per-output-channel array in `ConvState.zWtArr`). -/
structure ThrArgs where
  dimIn : Nat
  chIn : Nat
  chOut : Nat
  dimK : Nat
  padL : Nat
  padR : Nat
  padT : Nat
  padB : Nat
  stride : Nat
  dimOut : Nat
  zIn : Nat

/-! ## Requantization helpers of the icn variant -/

/-- Modelled from the spec: `__n_zero_negative_normalization` redistributes a
negative per-channel shift between a pre-shift and a post-shift so both stay
in valid shift ranges: a negative `n` becomes the pre-shift `-n` with
post-shift 0, a non-negative `n` the post-shift `n` with pre-shift 0. -/
def nzNorm (n : Int) : Nat × Nat := if n < 0 then ((-n).toNat, 0) else (0, n.toNat)

/-- The icn requantization of an accumulator (source line
`sum = ((__HI_SMULL(sum << n_zero1, m_zero[i])) >> n_zero2) + z_out`):
`__HI_SMULL` (modelled from the spec as the high 32-bit word of the signed
64-bit product) applied to the pre-shifted sum and the per-channel
multiplier, arithmetically shifted right by the post-shift, plus the output
offset, in wrapping `int32` arithmetic. -/
def icnFold (sum m n : Int) (zOut : Nat) : Int :=
  let nz := nzNorm n
  i32 ((i32 (sum * 2 ^ nz.1) * m / 4294967296) / 2 ^ nz.2 + (zOut : Int))

/-! ## arm_convolve_HWC_u2_u2_u8_icn: im2col stage

The codec `arm_u2_to_int16_reordered` is not part of this excerpt.  Modelled
from the spec: given the byte pointer `Im_in + (off >> 2)` it converts `n`
packed 2-bit input values (starting at the first element of that byte) into
`n` zero-point-subtracted int16 working values; its fixed reordering
permutation, being agreed between patch loading and weight loading, is
modelled as the identity consumption order. -/

/-- Working value `k` produced by `arm_u2_to_int16_reordered` reading from
byte base `bb` of `Im_in` with input offset `zIn`: 2-bit element `k % 4` of
byte `bb + k/4`, minus the zero point. -/
def icnCodecVal (s : ConvState) (bb : Int) (zIn k : Nat) : Int :=
  (s.imIn (bb + (k / 4 : Nat)) % 256 / 4 ^ (k % 4) % 4 : Nat) - (zIn : Int)

/-- One im2col cell of the top/bottom regions of arm_convolve_HWC_u2_u2_u8_icn
(both axes bounds-checked): out-of-range cells are `memset` to 0, in-range
cells go through the codec from byte base
`((i_ker_y*dim_im_in + i_ker_x)*ch_im_in) >> 2`. -/
def icnCellYX (a : IcnArgs) (s : ConvState) (pB : Nat) (iky ikx : Int) : ConvState :=
  if iky < 0 ∨ iky ≥ (a.dimIn : Int) ∨ ikx < 0 ∨ ikx ≥ (a.dimIn : Int) then
    bufWriteSeq s pB a.chIn (fun _ => 0)
  else
    bufWriteSeq s pB a.chIn
      (icnCodecVal s ((iky * a.dimIn + ikx) * a.chIn / 4) a.zIn)

/-- One im2col cell of the left/right parts of the middle region (only the x
axis is bounds-checked). -/
def icnCellX (a : IcnArgs) (s : ConvState) (pB : Nat) (iky ikx : Int) : ConvState :=
  if ikx < 0 ∨ ikx ≥ (a.dimIn : Int) then
    bufWriteSeq s pB a.chIn (fun _ => 0)
  else
    bufWriteSeq s pB a.chIn
      (icnCodecVal s ((iky * a.dimIn + ikx) * a.chIn / 4) a.zIn)

/-- The inner x loop of a bounds-checked im2col position: cells at
`i_ker_x = x0, …, x0 + dim_kernel - 1`, each advancing `pBuffer` by
`ch_im_in`. -/
def icnFillRow (cell : IcnArgs → ConvState → Nat → Int → Int → ConvState)
    (a : IcnArgs) (iky x0 : Int) (L : Loc) : Loc :=
  (intRange x0 (x0 + a.dimK)).foldl
    (fun L ikx => ⟨L.pB + a.chIn, L.pOut, cell a L.s L.pB iky ikx⟩) L

/-- A fully bounds-checked im2col position of arm_convolve_HWC_u2_u2_u8_icn:
the y loop over `i_ker_y = i_out_y*stride - top_padding + [0, dim_kernel)`,
each row running the x loop. -/
def icnFillBoth (a : IcnArgs) (oy ox : Int) (L : Loc) : Loc :=
  (intRange (oy * a.stride - a.padT) (oy * a.stride - a.padT + a.dimK)).foldl
    (fun L iky => icnFillRow icnCellYX a iky (ox * a.stride - a.padL) L) L

/-- An x-checked im2col position (left/right parts of the middle region). -/
def icnFillX (a : IcnArgs) (oy ox : Int) (L : Loc) : Loc :=
  (intRange (oy * a.stride - a.padT) (oy * a.stride - a.padT + a.dimK)).foldl
    (fun L iky => icnFillRow icnCellX a iky (ox * a.stride - a.padL) L) L

/-- The mid-part im2col position of arm_convolve_HWC_u2_u2_u8_icn (source
lines 214-222): one codec call per kernel row copying `ch_im_in * dim_kernel`
values from byte base
`((i_ker_y*dim_im_in + i_out_x*stride - top_padding)*ch_im_in) >> 2` — note
the source computes the x offset of this bulk copy with `top_padding`. -/
def icnFillMid (a : IcnArgs) (oy ox : Int) (L : Loc) : Loc :=
  (intRange (oy * a.stride - a.padT) (oy * a.stride - a.padT + a.dimK)).foldl
    (fun L iky =>
      ⟨L.pB + a.chIn * a.dimK, L.pOut,
        bufWriteSeq L.s L.pB (a.chIn * a.dimK)
          (icnCodecVal L.s
            ((iky * a.dimIn + ox * a.stride - a.padT) * a.chIn / 4) a.zIn)⟩) L

/-! ## arm_convolve_HWC_u2_u2_u8_icn: bulk kernel dispatch and tail -/

/-- Lane value of weight element `j` of output row `c` in the icn bulk/tail
computation: the u8 weight byte at `c*numCol + j` minus the scalar weight
offset, as a 16-bit lane (`__SSUB16`). -/
def icnWtLane (s : ConvState) (zWt n c : Nat) (j : Nat) : Int :=
  i16 ((s.wt (c * n + j) % 256 : Nat) - (zWt : Int))

/-- Buffer lane `j` of `bufferA` read as an int16 SIMD lane. -/
def bufLane (s : ConvState) (j : Nat) : Int := i16 (s.bufferA j)

/-- Modelled from the spec: the per-channel accumulator of
`arm_nn_mat_mult_kernel_reordered_u8_int16_u2_icn` (declared but not defined
in this excerpt) for patch `q` and output channel `c`: the bias seed plus the
zero-point-adjusted dot product of weight row `c` with patch `q`, in wrapping
int32 arithmetic. -/
def icnBulkSum (a : IcnArgs) (s : ConvState) (n q c : Nat) : Int :=
  i32 (i32 (s.bias c) + dotAdj (icnWtLane s a.zWt n c) (bufLane s) 0 (q * n) n)

/-- Modelled from the spec: the requantized u2 output value of bulk channel
`c`, patch `q` (icn folding then `__USAT(·, 2)`). -/
def icnBulkVal (a : IcnArgs) (s : ConvState) (n q c : Nat) : Nat :=
  (usat (icnFold (icnBulkSum a s n q c) (i32 (s.mZero c)) (i8 (s.nZero c)) a.zOut) 2).toNat

/-- Modelled from the spec: the bulk kernel packs the `ch_im_out` u2 outputs
of each patch four per byte, lowest channel in the least-significant slot
(the packing convention of the in-source tail path), patch 2 starting
`ch_im_out >> 2` bytes after patch 1. -/
def icnDispatch (a : IcnArgs) (n : Nat) (L : Loc) : Loc :=
  let byteFor : Nat → Nat → Nat := fun q t =>
    icnBulkVal a L.s n q (4*t) + 4 * icnBulkVal a L.s n q (4*t+1) +
      16 * icnBulkVal a L.s n q (4*t+2) + 64 * icnBulkVal a L.s n q (4*t+3)
  let s1 := outWriteSeq L.s L.pOut (a.chOut >>> 2) (byteFor 0)
  let s2 := outWriteSeq s1 (L.pOut + (a.chOut >>> 2)) (a.chOut >>> 2) (byteFor 1)
  ⟨0, L.pOut + 2 * (a.chOut >>> 2), s2⟩

/-- Leftover scalar accumulation of the icn tail (`colCnt = numCol & 0x3`):
`uint8_t` loads of the weight byte and of the truncated buffer cell, the
weight offset subtracted in wrapping `uint8_t` arithmetic, products
accumulated into the wrapping int32 sum. -/
def icnTailLeft (wt : Nat → Nat) (bufA : Nat → Int) (zWt : Nat) :
    Nat → Nat → Nat → Int → Int
  | 0, _, _, acc => acc
  | cnt+1, wb, bb, acc =>
      icnTailLeft wt bufA zWt cnt (wb+1) (bb+1)
        (i32 (acc + (u8c ((wt wb % 256 : Nat) - (zWt : Int)) : Int) *
          (u8c (i16 (bufA bb)) : Int)))

/-- The bias-seeded accumulator of output channel `i` in the icn tail path:
`numCol >> 2` blocks of 4 columns (two __SMLAD steps each, weights through
`read_and_pad_reordered_u8`, modelled from the spec in identity consumption
order at 1 byte per element), then the `numCol & 0x3` leftover columns.
Channel `i`'s weights start `numCol * i` bytes into `wt` (`pA` is advanced by
both loops across channels). -/
def icnTailSum (a : IcnArgs) (s : ConvState) (n i : Nat) : Int :=
  icnTailLeft s.wt s.bufferA a.zWt (n &&& 3) (n * i + 4 * (n >>> 2)) (4 * (n >>> 2))
    (macChain (fun j => icnWtLane s a.zWt n i (j - n * i)) (bufLane s)
      (n * i) 0 (2 * (n >>> 2)) (i32 (s.bias i)))

/-- The requantized u2 value the icn tail stores for channel `i`. -/
def icnTailVal (a : IcnArgs) (s : ConvState) (n i : Nat) : Nat :=
  (usat (icnFold (icnTailSum a s n i) (i32 (s.mZero i)) (i8 (s.nZero i)) a.zOut) 2).toNat

/-- The output-store state machine of the icn tail (source lines 388-406):
`pOut_per_byte` (a C `int`, embedded as `Int`) starts at 4; case 4
overwrites the byte with the u2 value, cases 3/2/1 OR the value in at bit
offsets 2/4/6, and case 1 advances `pOut` and executes `pOut_per_byte-=4`
(source line 404), leaving the counter at `1 - 4 = -3` — from then on no
case matches, so later channels are neither stored nor advance `pOut`.  One
channel is consumed per iteration; `cnt` channels remain. -/
def icnTailGo (a : IcnArgs) (n : Nat) : Nat → Nat → Nat → Int → ConvState → ConvState
  | 0, _, _, _, s => s
  | cnt+1, i, p, per, s =>
      let v := icnTailVal a s n i
      if per = 4 then
        icnTailGo a n cnt (i+1) p 3 { s with imOut := writeN s.imOut p v }
      else if per = 3 then
        icnTailGo a n cnt (i+1) p 2
          { s with imOut := writeN s.imOut p (s.imOut p ||| (v <<< 2)) }
      else if per = 2 then
        icnTailGo a n cnt (i+1) p 1
          { s with imOut := writeN s.imOut p (s.imOut p ||| (v <<< 4)) }
      else if per = 1 then
        icnTailGo a n cnt (i+1) (p+1) (per - 4)
          { s with imOut := writeN s.imOut p (s.imOut p ||| (v <<< 6)) }
      else icnTailGo a n cnt (i+1) p per s

/-- The icn tail path over all `ch_im_out` channels, starting byte-aligned
(`pOut_per_byte = 4`). -/
def icnTail (a : IcnArgs) (n p0 : Nat) (s : ConvState) : ConvState :=
  icnTailGo a n a.chOut 0 p0 4 s

/-! ## arm_convolve_HWC_u2_u2_u8_icn: driver -/

/-- After each im2col position: if `pBuffer` reached
`bufferA + 2*ch_im_in*dim_kernel*dim_kernel`, dispatch the bulk kernel and
reset the fill cursor. -/
def icnAfter (a : IcnArgs) (n : Nat) (L : Loc) : Loc :=
  if L.pB = 2 * n then icnDispatch a n L else L

/-- Iterate a per-position fill (plus dispatch check) over an output region,
y outer, x inner. -/
def icnRegion (a : IcnArgs) (n : Nat) (fill : IcnArgs → Int → Int → Loc → Loc)
    (ys xs : List Int) (L : Loc) : Loc :=
  ys.foldl (fun L oy => xs.foldl (fun L ox => icnAfter a n (fill a oy ox L)) L) L

/-- The body of arm_convolve_HWC_u2_u2_u8_icn after the size check: top
region (full bounds checks), middle region (left / mid / right split on x),
bottom region, then the leftover tail if the scratch buffer is non-empty. -/
def icnRun (a : IcnArgs) (s : ConvState) : ConvState :=
  let n := a.chIn * a.dimK * a.dimK
  let L : Loc := ⟨0, 0, s⟩
  let L := icnRegion a n icnFillBoth (intRange 0 a.padT) (intRange 0 a.dimOut) L
  let midYs := intRange a.padT ((a.dimOut : Int) - a.padB)
  let L := icnRegion a n icnFillX midYs (intRange 0 a.padL) L
  let L := icnRegion a n icnFillMid midYs (intRange a.padL ((a.dimOut : Int) - a.padR)) L
  let L := icnRegion a n icnFillX midYs
             (intRange (max (a.padL : Int) ((a.dimOut : Int) - a.padR)) a.dimOut) L
  let L := icnRegion a n icnFillBoth
             (intRange (max (a.padT : Int) ((a.dimOut : Int) - a.padB)) a.dimOut)
             (intRange 0 a.dimOut) L
  if L.pB ≠ 0 then icnTail a n L.pOut L.s else L.s

/-- Return status of the convolution entry points. -/
inductive ArmStatus where
  | success : ArmStatus
  | sizeMismatch : ArmStatus
deriving DecidableEq

/-- arm_convolve_HWC_u2_u2_u8_icn: if `ch_im_in % 16 != 0 || ch_im_out % 16
!= 0` return ARM_MATH_SIZE_MISMATCH at once (no store has happened);
otherwise run the pipeline and return ARM_MATH_SUCCESS. -/
def arm_convolve_HWC_u2_u2_u8_icn (a : IcnArgs) (s : ConvState) : ArmStatus × ConvState :=
  if a.chIn % 16 ≠ 0 ∨ a.chOut % 16 ≠ 0 then (.sizeMismatch, s)
  else (.success, icnRun a s)

/-! ## arm_convolve_HWC_u8_u8_u2_PACT_CH_thr: im2col stage

The codec here is `arm_u8_to_int16_reordered` (not in this excerpt).
Modelled from the spec: it converts `n` u8 input bytes starting at
`Im_in + off` into `n` zero-point-subtracted int16 working values, identity
consumption order as above. -/

/-- Working value `k` produced by `arm_u8_to_int16_reordered` reading from
byte offset `off` of `Im_in` with input offset `zIn`. -/
def thrCodecVal (s : ConvState) (off : Int) (zIn k : Nat) : Int :=
  (s.imIn (off + (k : Nat)) % 256 : Nat) - (zIn : Int)

/-- One im2col cell of the top/bottom regions of
arm_convolve_HWC_u8_u8_u2_PACT_CH_thr (both axes bounds-checked). -/
def thrCellYX (a : ThrArgs) (s : ConvState) (pB : Nat) (iky ikx : Int) : ConvState :=
  if iky < 0 ∨ iky ≥ (a.dimIn : Int) ∨ ikx < 0 ∨ ikx ≥ (a.dimIn : Int) then
    bufWriteSeq s pB a.chIn (fun _ => 0)
  else
    bufWriteSeq s pB a.chIn (thrCodecVal s ((iky * a.dimIn + ikx) * a.chIn) a.zIn)

/-- One im2col cell of the left/right parts of the middle region (x-axis
check only). -/
def thrCellX (a : ThrArgs) (s : ConvState) (pB : Nat) (iky ikx : Int) : ConvState :=
  if ikx < 0 ∨ ikx ≥ (a.dimIn : Int) then
    bufWriteSeq s pB a.chIn (fun _ => 0)
  else
    bufWriteSeq s pB a.chIn (thrCodecVal s ((iky * a.dimIn + ikx) * a.chIn) a.zIn)

/-- The inner x loop of a bounds-checked im2col position of the thr driver. -/
def thrFillRow (cell : ThrArgs → ConvState → Nat → Int → Int → ConvState)
    (a : ThrArgs) (iky x0 : Int) (L : Loc) : Loc :=
  (intRange x0 (x0 + a.dimK)).foldl
    (fun L ikx => ⟨L.pB + a.chIn, L.pOut, cell a L.s L.pB iky ikx⟩) L

/-- A fully bounds-checked im2col position of the thr driver. -/
def thrFillBoth (a : ThrArgs) (oy ox : Int) (L : Loc) : Loc :=
  (intRange (oy * a.stride - a.padT) (oy * a.stride - a.padT + a.dimK)).foldl
    (fun L iky => thrFillRow thrCellYX a iky (ox * a.stride - a.padL) L) L

/-- An x-checked im2col position of the thr driver. -/
def thrFillX (a : ThrArgs) (oy ox : Int) (L : Loc) : Loc :=
  (intRange (oy * a.stride - a.padT) (oy * a.stride - a.padT + a.dimK)).foldl
    (fun L iky => thrFillRow thrCellX a iky (ox * a.stride - a.padL) L) L

/-- The mid-part im2col position of arm_convolve_HWC_u8_u8_u2_PACT_CH_thr
(source lines 206-214): one codec call per kernel row copying
`ch_im_in * dim_kernel` bytes from offset
`(i_ker_y*dim_im_in + i_out_x*stride - top_padding)*ch_im_in` — note the
source computes the x offset of this bulk copy with `top_padding`. -/
def thrFillMid (a : ThrArgs) (oy ox : Int) (L : Loc) : Loc :=
  (intRange (oy * a.stride - a.padT) (oy * a.stride - a.padT + a.dimK)).foldl
    (fun L iky =>
      ⟨L.pB + a.chIn * a.dimK, L.pOut,
        bufWriteSeq L.s L.pB (a.chIn * a.dimK)
          (thrCodecVal L.s ((iky * a.dimIn + ox * a.stride - a.padT) * a.chIn) a.zIn)⟩) L

/-! ## arm_convolve_HWC_u8_u8_u2_PACT_CH_thr: bulk kernel dispatch and tail -/

/-- Lane value of u2 weight element `j` of output row `c` for the thr
convolution: packed 2-bit element `c*numCol + j` of `wt` minus the
per-channel weight offset `z_wt[c]`, as a 16-bit lane. -/
def thrWtLane (s : ConvState) (n c : Nat) (j : Nat) : Int :=
  i16 ((u2elemN s.wt (c * n + j) : Nat) - (s.zWtArr c % 256 : Nat) : Int)

/-- Modelled from the spec: an ascending per-channel threshold ladder sized
to u8 output (256 entries starting at `thr base`), emitting the ladder index. -/
def thrLadder256 (x : Int) (thr : Nat → Int) (base : Nat) : Int :=
  (((List.range 256).countP (fun k => decide (i16 (thr (base + k)) ≤ x)) : Nat) : Int)

/-- Modelled from the spec: the per-channel accumulator of
`arm_nn_mat_mult_kernel_reordered_u2_int16_u8_PACT_CH_thr` (declared but not
defined in this excerpt) for patch `q` and channel `c`. -/
def thrBulkSum (s : ConvState) (n q c : Nat) : Int :=
  i32 (i32 (s.bias c) + dotAdj (thrWtLane s n c) (bufLane s) 0 (q * n) n)

/-- Modelled from the spec: the requantized u8 output byte of bulk channel
`c`, patch `q`: threshold folding against the channel's ladder, saturated to
8 bits. -/
def thrBulkVal (s : ConvState) (n q c : Nat) : Nat :=
  (usat (thrLadder256 (thrBulkSum s n q c) s.thresholds (c <<< 8)) 8).toNat

/-- Modelled from the spec: the u8-output bulk kernel writes one byte per
channel, patch 2 starting `ch_im_out` bytes after patch 1, and returns the
output pointer advanced by `2 * ch_im_out`. -/
def thrDispatch (a : ThrArgs) (n : Nat) (L : Loc) : Loc :=
  let s1 := outWriteSeq L.s L.pOut a.chOut (thrBulkVal L.s n 0)
  let s2 := outWriteSeq s1 (L.pOut + a.chOut) a.chOut (thrBulkVal L.s n 1)
  ⟨0, L.pOut + 2 * a.chOut, s2⟩

/-- One 16-column block of the thr tail accumulation (source lines 338-381),
embedded exactly as written: the block loads lanes `w0..w15`
(`read_and_pad_reordered_uint2`, modelled from the spec in identity
consumption order) but performs ten __SMLAD steps consuming twenty buffer
cells, re-using lanes `w4..w7` a second time after subtracting the weight
offset from them twice. -/
def thrTailBlock (wt : Nat → Nat) (bufA : Nat → Int) (zi : Int) (wb bb : Nat)
    (acc : Int) : Int :=
  let w : Nat → Int := fun k => i16 ((u2elemN wt (wb + k) : Nat) - zi)
  let w2 : Nat → Int := fun k => i16 (w k - zi)
  let b : Nat → Int := fun k => i16 (bufA (bb + k))
  let acc := smlad (w 0) (b 0) (w 1) (b 1) acc
  let acc := smlad (w 2) (b 2) (w 3) (b 3) acc
  let acc := smlad (w 4) (b 4) (w 5) (b 5) acc
  let acc := smlad (w 6) (b 6) (w 7) (b 7) acc
  let acc := smlad (w2 4) (b 8) (w2 5) (b 9) acc
  let acc := smlad (w2 6) (b 10) (w2 7) (b 11) acc
  let acc := smlad (w 8) (b 12) (w 9) (b 13) acc
  let acc := smlad (w 10) (b 14) (w 11) (b 15) acc
  let acc := smlad (w 12) (b 16) (w 13) (b 17) acc
  smlad (w 14) (b 18) (w 15) (b 19) acc

/-- The `numCol >> 4` block iterations of the thr tail: each consumes 16
weight elements but 20 buffer cells. -/
def thrTailMain (wt : Nat → Nat) (bufA : Nat → Int) (zi : Int) :
    Nat → Nat → Nat → Int → Int
  | 0, _, _, acc => acc
  | cnt+1, wb, bb, acc =>
      thrTailMain wt bufA zi cnt (wb+16) (bb+20) (thrTailBlock wt bufA zi wb bb acc)

/-- Leftover loop of the thr tail (source lines 386-409), embedded exactly
as written: `wt_per_byte` starts at 4 and is never decremented, so every
iteration takes the `case 4` branch — `inA1 = __USAT(*pA, 2)` saturates the
same weight byte (never advancing `pA`), the per-channel offset is
subtracted in wrapping `uint8_t` arithmetic, and the buffer cell is read
through a `uint8_t` cast. -/
def thrTailLeft (wt : Nat → Nat) (bufA : Nat → Int) (zi : Nat) (wByte : Nat) :
    Nat → Nat → Int → Int
  | 0, _, acc => acc
  | cnt+1, bb, acc =>
      thrTailLeft wt bufA zi wByte cnt (bb+1)
        (i32 (acc + (u8c ((min (wt wByte % 256) 3 : Nat) - (zi : Int)) : Int) *
          (u8c (i16 (bufA bb)) : Int)))

/-- The accumulator of channel `i` of the thr tail.  The source references
the undefined identifiers `ch_out_id` and `VzA` here (the file cannot
compile as written); the evident intent `z_wt[i]` is embedded.  `pA` advances
`4 * (numCol >> 4)` bytes per channel (the stuck leftover loop adds
nothing). -/
def thrTailSum (s : ConvState) (n i : Nat) : Int :=
  let zi := s.zWtArr i % 256
  thrTailLeft s.wt s.bufferA zi (4 * (n >>> 4) * (i + 1)) (n &&& 15) (20 * (n >>> 4))
    (thrTailMain s.wt s.bufferA (zi : Int) (n >>> 4) (16 * (n >>> 4) * i) 0 (i32 (s.bias i)))

/-- The thr tail path (source lines 317-417): per channel, accumulate and
store `(uint8_t) __USAT(sum, 8)` at `*pOut++` — the threshold normalization
is absent (the source marks it with `#warning No threasholds available at
u8`). -/
def thrTail : Nat → Nat → Nat → Nat → ConvState → ConvState
  | _, 0, _, _, s => s
  | n, cnt+1, i, p, s =>
      thrTail n cnt (i+1) (p+1)
        { s with imOut := writeN s.imOut p (usat (thrTailSum s n i) 8).toNat }

/-! ## arm_convolve_HWC_u8_u8_u2_PACT_CH_thr: driver -/

/-- Dispatch check of the thr driver. -/
def thrAfter (a : ThrArgs) (n : Nat) (L : Loc) : Loc :=
  if L.pB = 2 * n then thrDispatch a n L else L

/-- Region iteration of the thr driver. -/
def thrRegion (a : ThrArgs) (n : Nat) (fill : ThrArgs → Int → Int → Loc → Loc)
    (ys xs : List Int) (L : Loc) : Loc :=
  ys.foldl (fun L oy => xs.foldl (fun L ox => thrAfter a n (fill a oy ox L)) L) L

/-- The body of arm_convolve_HWC_u8_u8_u2_PACT_CH_thr after the size check. -/
def thrRun (a : ThrArgs) (s : ConvState) : ConvState :=
  let n := a.chIn * a.dimK * a.dimK
  let L : Loc := ⟨0, 0, s⟩
  let L := thrRegion a n thrFillBoth (intRange 0 a.padT) (intRange 0 a.dimOut) L
  let midYs := intRange a.padT ((a.dimOut : Int) - a.padB)
  let L := thrRegion a n thrFillX midYs (intRange 0 a.padL) L
  let L := thrRegion a n thrFillMid midYs (intRange a.padL ((a.dimOut : Int) - a.padR)) L
  let L := thrRegion a n thrFillX midYs
             (intRange (max (a.padL : Int) ((a.dimOut : Int) - a.padR)) a.dimOut) L
  let L := thrRegion a n thrFillBoth
             (intRange (max (a.padT : Int) ((a.dimOut : Int) - a.padB)) a.dimOut)
             (intRange 0 a.dimOut) L
  if L.pB ≠ 0 then thrTail n a.chOut 0 L.pOut L.s else L.s

/-- arm_convolve_HWC_u8_u8_u2_PACT_CH_thr: if `ch_im_in % 4 != 0 ||
ch_im_out % 4 != 0` return ARM_MATH_SIZE_MISMATCH at once; otherwise run the
pipeline and return ARM_MATH_SUCCESS. -/
def arm_convolve_HWC_u8_u8_u2_PACT_CH_thr (a : ThrArgs) (s : ConvState) :
    ArmStatus × ConvState :=
  if a.chIn % 4 ≠ 0 ∨ a.chOut % 4 ≠ 0 then (.sizeMismatch, s)
  else (.success, thrRun a s)

/-! ## Arithmetic lemmas -/

/-- All state fields except the two the convolutions are allowed to write
(`bufferA`, `imOut`) are unchanged from `s` to `t`. -/
def Frame (s t : ConvState) : Prop :=
  t.imIn = s.imIn ∧ t.wt = s.wt ∧ t.bias = s.bias ∧ t.mZero = s.mZero ∧
  t.nZero = s.nZero ∧ t.zWtArr = s.zWtArr ∧ t.thresholds = s.thresholds ∧
  t.bufferB = s.bufferB

/-- Replace the `bufferB` field. -/
def setB (s : ConvState) (b : Nat → Nat) : ConvState := { s with bufferB := b }

/-- Replace the `bufferB` field under a `Loc`. -/
def locSetB (L : Loc) (b : Nat → Nat) : Loc := ⟨L.pB, L.pOut, setB L.s b⟩

/-- A `Loc` transformer is oblivious to `bufferB` (its result is unchanged,
except that the field is passed through) and writes only `bufferA`/`imOut`. -/
def PL (g : Loc → Loc) : Prop :=
  (∀ L b, g (locSetB L b) = locSetB (g L) b) ∧ (∀ L, Frame L.s (g L).s)

/-- An all-zero memory state, used to instantiate universally quantified
theorems at a concrete input. -/
def zeroState : ConvState :=
  ⟨fun _ => 0, fun _ => 0, fun _ => 0, fun _ => 0, fun _ => 0,
   fun _ => 0, fun _ => 0, fun _ => 0, fun _ => 0, fun _ => 0⟩

/-- A concrete icn geometry with 8 output channels (1x1 input, 1x1 kernel,
`z_out = 2`), exhibiting the tail across a byte boundary. -/
def icnC7Args : IcnArgs := ⟨1, 4, 8, 1, 0, 0, 0, 0, 1, 1, 0, 0, 2⟩

/-- The working value obtained by running the codec on a u8 input image
manually padded with the byte value `pad` outside `[0, dim_im_in)²` (the
comparison image of the specification's padding property). -/
def thrPadSample (a : ThrArgs) (s : ConvState) (pad : Nat) (iky ikx : Int) (k : Nat) : Int :=
  (if 0 ≤ iky ∧ iky < (a.dimIn : Int) ∧ 0 ≤ ikx ∧ ikx < (a.dimIn : Int) then
    ((s.imIn ((iky * a.dimIn + ikx) * a.chIn + k) % 256 : Nat) : Int)
  else (pad : Int)) - (a.zIn : Int)

/-- Element `e` of a packed 2-bit image addressed from an `Int` element
offset. -/
def u2elemI (f : Int → Nat) (e : Int) : Nat := f (e / 4) % 256 / 4 ^ (e % 4).toNat % 4

/-- The working value obtained by running the codec on a u2 input image
manually padded with the element value `pad` outside `[0, dim_im_in)²`. -/
def icnPadSample (a : IcnArgs) (s : ConvState) (pad : Nat) (iky ikx : Int) (k : Nat) : Int :=
  (if 0 ≤ iky ∧ iky < (a.dimIn : Int) ∧ 0 ≤ ikx ∧ ikx < (a.dimIn : Int) then
    ((u2elemI s.imIn ((iky * a.dimIn + ikx) * a.chIn + k) : Nat) : Int)
  else (pad : Int)) - (a.zIn : Int)

/-- The receptive-field working value the claim prescribes for kernel row
`i_ker_y` of a mid-part position of the u8 convolution, with x origin `x0`:
channel `k` of the `dim_kernel`-pixel row starting at `(i_ker_y, x0)`. -/
def thrFieldVal (a : ThrArgs) (s : ConvState) (iky x0 : Int) (k : Nat) : Int :=
  ((s.imIn ((iky * a.dimIn + x0) * a.chIn + k) % 256 : Nat) : Int) - (a.zIn : Int)

/-- Receptive-field working value for the u2 convolution (element-level read
of the packed input). -/
def icnFieldVal (a : IcnArgs) (s : ConvState) (iky x0 : Int) (k : Nat) : Int :=
  ((u2elemI s.imIn ((iky * a.dimIn + x0) * a.chIn + k) : Nat) : Int) - (a.zIn : Int)

/-- Geometry exercising the mid path with `top_padding = 1 ≠ 0 =
left_padding`: 3×3 input, 3×3... (kernel 1×1, stride 1, pads L0/R1/T1/B0,
output 4×4). -/
def thrC1Args : ThrArgs := ⟨3, 4, 4, 1, 0, 1, 1, 0, 1, 4, 0⟩

/-- Input image state with pairwise distinct byte values. -/
def imgState : ConvState := { zeroState with imIn := fun e => e.toNat % 256 }

/-- The icn analog of `thrC1Args` (16 input channels). -/
def icnC1Args : IcnArgs := ⟨3, 16, 16, 1, 0, 1, 1, 0, 1, 4, 0, 0, 0⟩

/-- A u2 input image whose pixel (0, 0) elements are all 0 while pixel
(0, 1) starts with element value 1. -/
def imgState2 : ConvState := { zeroState with imIn := fun e => if e = 4 then 1 else 0 }

/-- The output byte holding tail channels `i, i+1, i+2, i+3`: channel `i` in
the least-significant 2-bit slot. -/
def icnTailByte (a : IcnArgs) (s : ConvState) (n i : Nat) : Nat :=
  icnTailVal a s n i + 4 * icnTailVal a s n (i+1) + 16 * icnTailVal a s n (i+2) +
    64 * icnTailVal a s n (i+3)

/-- The byte the original claim predicts for a pair of sub-byte outputs:
first (lowest-channel) value in the most-significant slot. -/
def msbFirstPackPair (v0 v1 : Nat) : Nat := (v0 <<< 4) ||| v1

/-- Concrete state for the thr tail comparison: weight byte 0 is 1, all
buffer cells 1, all thresholds 100, biases 0. -/
def thrC2State : ConvState :=
  { zeroState with
      wt := fun k => if k = 0 then 1 else 0,
      thresholds := fun _ => 100,
      bufferA := fun _ => 1 }

theorem i32_addl (x y : Int) : i32 (i32 x + y) = i32 (x + y) := by
  unfold i32; omega

theorem i16_eq_self (x : Int) (h1 : -32768 ≤ x) (h2 : x < 32768) : i16 x = x := by
  unfold i16; omega

theorem dotAdj_congr (a a' b : Nat → Int) (h : ∀ j, a j = a' j) :
    ∀ (cnt u v : Nat), dotAdj a b u v cnt = dotAdj a' b u v cnt := by
  intro cnt
  induction cnt with
  | zero => intro u v; rfl
  | succ t ih => intro u v; simp only [dotAdj, h, ih]

theorem macChain_spec (a b : Nat → Int) :
    ∀ (cnt u v : Nat) (acc : Int),
      macChain a b u v cnt (i32 acc) = i32 (acc + dotAdj a b u v (2 * cnt)) := by
  intro cnt
  induction cnt with
  | zero => intro u v acc; simp [macChain, dotAdj]
  | succ t ih =>
      intro u v acc
      have hs : smlad (a u) (b v) (a (u+1)) (b (v+1)) (i32 acc) =
          i32 (acc + (a u * b v + a (u+1) * b (v+1))) := by
        unfold smlad
        rw [show i32 acc + a u * b v + a (u+1) * b (v+1) =
              i32 acc + (a u * b v + a (u+1) * b (v+1)) by ring, i32_addl]
      have h2 : 2 * (t + 1) = 2 * t + 1 + 1 := by ring
      rw [h2]
      show macChain a b (u+2) (v+2) t (smlad (a u) (b v) (a (u+1)) (b (v+1)) (i32 acc)) = _
      rw [hs, ih]
      simp only [dotAdj]
      congr 1
      ring

/-! ## C3: the bulk accumulators of the u4 kernel -/

/-- C3 (amended): every accumulator of a row-pair iteration of
arm_nn_mat_mult_kernel_reordered_u2_int16_u4_PACT_CH_thr equals the row bias
plus the zero-point-adjusted dot product over the first `16 * (numCol_A /
16)` columns only: the block loop runs `numCol_A >> 4` times and the
leftover loop for the trailing `numCol_A mod 16` columns is disabled
(`#if 0`), so those columns are omitted whenever `numCol_A` is not a
multiple of 16.  For `16 ∣ numCol_A` this is the dot product over all
`numCol_A` columns, as the original claim states. -/
theorem u4PairSums_bias_plus_truncated_dot (wA : Nat → Nat) (buf : Nat → Int)
    (bias : Nat → Int) (zA : Nat → Nat) (n i eA : Nat) :
    u4PairSums wA buf bias zA n i eA =
      (i32 (bias i + dotAdj (fun j => ((wA j % 4 : Nat) : Int) - ((zA i % 256 : Nat) : Int))
          (fun j => i16 (buf j)) eA 0 (16 * (n / 16))),
       i32 (bias i + dotAdj (fun j => ((wA j % 4 : Nat) : Int) - ((zA i % 256 : Nat) : Int))
          (fun j => i16 (buf j)) eA n (16 * (n / 16))),
       i32 (bias (i+1) + dotAdj (fun j => ((wA j % 4 : Nat) : Int) - ((zA (i+1) % 256 : Nat) : Int))
          (fun j => i16 (buf j)) (eA + 4 * (n >>> 2)) 0 (16 * (n / 16))),
       i32 (bias (i+1) + dotAdj (fun j => ((wA j % 4 : Nat) : Int) - ((zA (i+1) % 256 : Nat) : Int))
          (fun j => i16 (buf j)) (eA + 4 * (n >>> 2)) n (16 * (n / 16)))) := by
  have hstrip : ∀ (c : Nat) (j : Nat),
      i16 (((wA j % 4 : Nat) : Int) - ((zA c % 256 : Nat) : Int)) =
        ((wA j % 4 : Nat) : Int) - ((zA c % 256 : Nat) : Int) := by
    intro c j
    have h1 : wA j % 4 < 4 := Nat.mod_lt _ (by norm_num)
    have h2 : zA c % 256 < 256 := Nat.mod_lt _ (by norm_num)
    apply i16_eq_self <;> omega
  have hcnt : 2 * (8 * (n >>> 4)) = 16 * (n / 16) := by
    rw [Nat.shiftRight_eq_div_pow]
    norm_num
    ring
  unfold u4PairSums
  simp only [macChain_spec, hcnt, Prod.mk.injEq]
  refine ⟨?_, ?_, ?_, ?_⟩ <;>
    · congr 1
      congr 1
      exact dotAdj_congr _ _ _ (hstrip _) _ _ _

/-- C3 counterexample: at `numCol_A = 17` with all weight elements 1, all
buffer cells 1, zero offsets and zero bias, the first accumulator of the
kernel is 16, not the bias plus the adjusted dot product over all 17
columns (which is 17): the 17th column is omitted. -/
theorem u4PairSums_omits_trailing_columns :
    (u4PairSums (fun _ => 1) (fun _ => 1) (fun _ => 0) (fun _ => 0) 17 0 0).1 ≠
      i32 ((fun _ => (0 : Int)) 0 +
        dotAdj (fun j => (((fun _ => 1) j % 4 : Nat) : Int) - (((fun _ => 0) 0 % 256 : Nat) : Int))
          (fun j => i16 ((fun _ => (1 : Int)) j)) 0 0 17) := by
  decide

/-! ## C9: row-pair index accesses of the u4 kernel -/

theorem u4RowIdx_lt : ∀ (cnt i j : Nat), j ∈ u4RowIdx cnt i → j < i + 2 * cnt := by
  intro cnt
  induction cnt with
  | zero => intro i j h; simp [u4RowIdx] at h
  | succ t ih =>
      intro i j h
      simp only [u4RowIdx, List.mem_cons] at h
      rcases h with h | h | h
      · omega
      · omega
      · have := ih (i + 2) j h; omega

theorem u4RowIdx_mem : ∀ (cnt i k : Nat), k < 2 * cnt → (i + k) ∈ u4RowIdx cnt i := by
  intro cnt
  induction cnt with
  | zero => intro i k h; omega
  | succ t ih =>
      intro i k h
      simp only [u4RowIdx, List.mem_cons]
      by_cases h0 : k = 0
      · left; omega
      · by_cases h1 : k = 1
        · right; left; omega
        · right; right
          have : i + k = (i + 2) + (k - 2) := by omega
          rw [this]
          exact ih (i + 2) (k - 2) (by omega)

/-- C9: the row loop of
arm_nn_mat_mult_kernel_reordered_u2_int16_u4_PACT_CH_thr steps the row index
by 2 and reads `bias`, `z_a` (and the `thresholds` ladder bases, scaled by
16) at both `i` and, unconditionally, `i + 1`.  When `ch_im_out` is even
every such index stays below `ch_im_out` (and every ladder entry index below
`16 * ch_im_out`); when `ch_im_out` is odd the final iteration reads index
`ch_im_out` itself, one past the end. -/
theorem u4RowIdx_bounds (ch : Nat) :
    (ch % 2 = 0 →
      (∀ j ∈ u4RowIdx ((ch + 1) >>> 1) 0, j < ch) ∧
      (∀ j ∈ u4RowIdx ((ch + 1) >>> 1) 0, ∀ k < 16, 16 * j + k < 16 * ch)) ∧
    (ch % 2 = 1 → ch ∈ u4RowIdx ((ch + 1) >>> 1) 0) := by
  have hsh : (ch + 1) >>> 1 = (ch + 1) / 2 := by
    rw [Nat.shiftRight_eq_div_pow]
  constructor
  · intro hev
    have hb : ∀ j ∈ u4RowIdx ((ch + 1) >>> 1) 0, j < ch := by
      intro j hj
      have := u4RowIdx_lt _ 0 j hj
      rw [hsh] at this
      omega
    exact ⟨hb, fun j hj k hk => by have := hb j hj; omega⟩
  · intro hodd
    have : (0 + ch) ∈ u4RowIdx ((ch + 1) >>> 1) 0 := by
      apply u4RowIdx_mem
      rw [hsh]
      omega
    simpa using this

/-- Witness for `u4RowIdx_bounds` at `ch_im_out = 4` (even: all indices in
bounds) and `ch_im_out = 3` (odd: index 3 is read). -/
theorem u4RowIdx_bounds_witness :
    (∀ j ∈ u4RowIdx ((4 + 1) >>> 1) 0, j < 4) ∧ (3 : Nat) ∈ u4RowIdx ((3 + 1) >>> 1) 0 :=
  ⟨((u4RowIdx_bounds 4).1 (by decide)).1, (u4RowIdx_bounds 3).2 (by decide)⟩

/-! ## Frame machinery: which memory a convolution call can touch -/

theorem frame_self (s : ConvState) : Frame s s := ⟨rfl, rfl, rfl, rfl, rfl, rfl, rfl, rfl⟩

theorem frame_trans {s t u : ConvState} (h1 : Frame s t) (h2 : Frame t u) : Frame s u := by
  obtain ⟨a1, a2, a3, a4, a5, a6, a7, a8⟩ := h1
  obtain ⟨b1, b2, b3, b4, b5, b6, b7, b8⟩ := h2
  exact ⟨b1.trans a1, b2.trans a2, b3.trans a3, b4.trans a4,
         b5.trans a5, b6.trans a6, b7.trans a7, b8.trans a8⟩

theorem pl_id : PL (fun L => L) := ⟨fun _ _ => rfl, fun L => frame_self L.s⟩

theorem pl_comp {g1 g2 : Loc → Loc} (h1 : PL g1) (h2 : PL g2) :
    PL (fun L => g2 (g1 L)) := by
  refine ⟨fun L b => ?_, fun L => frame_trans (h1.2 L) (h2.2 (g1 L))⟩
  show g2 (g1 (locSetB L b)) = locSetB (g2 (g1 L)) b
  rw [h1.1, h2.1]

theorem pl_foldl {α : Type} (step : Loc → α → Loc) (h : ∀ x, PL (fun L => step L x)) :
    ∀ (xs : List α), PL (fun L => xs.foldl step L) := by
  intro xs
  induction xs with
  | nil => exact pl_id
  | cons x xs ih =>
      have hc := pl_comp (h x) ih
      refine ⟨fun L b => ?_, fun L => ?_⟩
      · simpa [List.foldl_cons] using hc.1 L b
      · simpa [List.foldl_cons] using hc.2 L

theorem bufWriteSeq_setB (s : ConvState) (dst n : Nat) (f : Nat → Int) (b : Nat → Nat) :
    bufWriteSeq (setB s b) dst n f = setB (bufWriteSeq s dst n f) b := rfl

theorem bufWriteSeq_frame (s : ConvState) (dst n : Nat) (f : Nat → Int) :
    Frame s (bufWriteSeq s dst n f) := ⟨rfl, rfl, rfl, rfl, rfl, rfl, rfl, rfl⟩

theorem outWriteSeq_setB (s : ConvState) (dst n : Nat) (g : Nat → Nat) (b : Nat → Nat) :
    outWriteSeq (setB s b) dst n g = setB (outWriteSeq s dst n g) b := rfl

theorem outWriteSeq_frame (s : ConvState) (dst n : Nat) (g : Nat → Nat) :
    Frame s (outWriteSeq s dst n g) := ⟨rfl, rfl, rfl, rfl, rfl, rfl, rfl, rfl⟩

theorem setB_imIn (s : ConvState) (b : Nat → Nat) : (setB s b).imIn = s.imIn := rfl

theorem setB_wt (s : ConvState) (b : Nat → Nat) : (setB s b).wt = s.wt := rfl

theorem setB_bias (s : ConvState) (b : Nat → Nat) : (setB s b).bias = s.bias := rfl

theorem setB_mZero (s : ConvState) (b : Nat → Nat) : (setB s b).mZero = s.mZero := rfl

theorem setB_nZero (s : ConvState) (b : Nat → Nat) : (setB s b).nZero = s.nZero := rfl

theorem setB_zWtArr (s : ConvState) (b : Nat → Nat) : (setB s b).zWtArr = s.zWtArr := rfl

theorem setB_thr (s : ConvState) (b : Nat → Nat) : (setB s b).thresholds = s.thresholds := rfl

theorem setB_bufA (s : ConvState) (b : Nat → Nat) : (setB s b).bufferA = s.bufferA := rfl

theorem setB_imOut (s : ConvState) (b : Nat → Nat) : (setB s b).imOut = s.imOut := rfl

theorem setB_bufB (s : ConvState) (b : Nat → Nat) : (setB s b).bufferB = b := rfl

theorem icnTailVal_setB (a : IcnArgs) (s : ConvState) (b : Nat → Nat) (n i : Nat) :
    icnTailVal a (setB s b) n i = icnTailVal a s n i := rfl

theorem locSetB_ite (c : Prop) [Decidable c] (X Y : Loc) (b : Nat → Nat) :
    locSetB (if c then X else Y) b = if c then locSetB X b else locSetB Y b := by
  split <;> rfl

theorem setB_ite (c : Prop) [Decidable c] (X Y : ConvState) (b : Nat → Nat) :
    setB (if c then X else Y) b = if c then setB X b else setB Y b := by
  split <;> rfl

theorem pl_icnCellYX (a : IcnArgs) (iky ikx : Int) :
    PL (fun L => ⟨L.pB + a.chIn, L.pOut, icnCellYX a L.s L.pB iky ikx⟩) := by
  constructor
  · intro L b
    show (⟨L.pB + a.chIn, L.pOut, icnCellYX a (setB L.s b) L.pB iky ikx⟩ : Loc) = _
    unfold icnCellYX
    split <;> rfl
  · intro L
    show Frame L.s (icnCellYX a L.s L.pB iky ikx)
    unfold icnCellYX
    split <;> exact bufWriteSeq_frame _ _ _ _

theorem pl_icnCellX (a : IcnArgs) (iky ikx : Int) :
    PL (fun L => ⟨L.pB + a.chIn, L.pOut, icnCellX a L.s L.pB iky ikx⟩) := by
  constructor
  · intro L b
    show (⟨L.pB + a.chIn, L.pOut, icnCellX a (setB L.s b) L.pB iky ikx⟩ : Loc) = _
    unfold icnCellX
    split <;> rfl
  · intro L
    show Frame L.s (icnCellX a L.s L.pB iky ikx)
    unfold icnCellX
    split <;> exact bufWriteSeq_frame _ _ _ _

theorem pl_icnFillRow (a : IcnArgs) (cell : IcnArgs → ConvState → Nat → Int → Int → ConvState)
    (hc : ∀ (iky ikx : Int), PL (fun L => ⟨L.pB + a.chIn, L.pOut, cell a L.s L.pB iky ikx⟩))
    (iky x0 : Int) : PL (fun L => icnFillRow cell a iky x0 L) := by
  unfold icnFillRow
  exact pl_foldl _ (fun ikx => hc iky ikx) _

theorem pl_icnFillBoth (a : IcnArgs) (oy ox : Int) : PL (fun L => icnFillBoth a oy ox L) := by
  unfold icnFillBoth
  exact pl_foldl _ (fun iky => pl_icnFillRow a icnCellYX (pl_icnCellYX a) iky _) _

theorem pl_icnFillX (a : IcnArgs) (oy ox : Int) : PL (fun L => icnFillX a oy ox L) := by
  unfold icnFillX
  exact pl_foldl _ (fun iky => pl_icnFillRow a icnCellX (pl_icnCellX a) iky _) _

theorem pl_icnFillMid (a : IcnArgs) (oy ox : Int) : PL (fun L => icnFillMid a oy ox L) := by
  unfold icnFillMid
  apply pl_foldl
  intro iky
  constructor
  · intro L b; rfl
  · intro L; exact bufWriteSeq_frame _ _ _ _

theorem pl_icnDispatch (a : IcnArgs) (n : Nat) : PL (fun L => icnDispatch a n L) := by
  constructor
  · intro L b; rfl
  · intro L
    show Frame L.s (icnDispatch a n L).s
    unfold icnDispatch
    exact frame_trans (outWriteSeq_frame _ _ _ _) (outWriteSeq_frame _ _ _ _)

theorem pl_icnAfter (a : IcnArgs) (n : Nat) : PL (fun L => icnAfter a n L) := by
  constructor
  · intro L b
    show (if (locSetB L b).pB = 2 * n then icnDispatch a n (locSetB L b) else locSetB L b) = _
    rw [show (locSetB L b).pB = L.pB from rfl]
    unfold icnAfter
    rw [locSetB_ite]
    split
    · exact (pl_icnDispatch a n).1 L b
    · rfl
  · intro L
    show Frame L.s (icnAfter a n L).s
    unfold icnAfter
    split
    · exact (pl_icnDispatch a n).2 L
    · exact frame_self _

theorem pl_icnRegion (a : IcnArgs) (n : Nat)
    (fill : IcnArgs → Int → Int → Loc → Loc)
    (hf : ∀ oy ox, PL (fun L => fill a oy ox L)) (ys xs : List Int) :
    PL (fun L => icnRegion a n fill ys xs L) := by
  unfold icnRegion
  apply pl_foldl
  intro oy
  apply pl_foldl
  intro ox
  exact pl_comp (hf oy ox) (pl_icnAfter a n)

theorem pl_icnTailGo (a : IcnArgs) (n : Nat) :
    ∀ (cnt i p : Nat) (per : Int),
      (∀ s b, icnTailGo a n cnt i p per (setB s b) = setB (icnTailGo a n cnt i p per s) b) ∧
      (∀ s, Frame s (icnTailGo a n cnt i p per s)) := by
  intro cnt
  induction cnt with
  | zero => intro i p per; exact ⟨fun s b => rfl, fun s => frame_self s⟩
  | succ t ih =>
      intro i p per
      constructor
      · intro s b
        show icnTailGo a n (t+1) i p per (setB s b) = _
        simp only [icnTailGo, setB_ite, setB_imOut, setB_bufB, icnTailVal_setB,
          setB_imIn, setB_wt, setB_bias, setB_mZero, setB_nZero, setB_zWtArr,
          setB_thr, setB_bufA]
        split_ifs
        · exact (ih (i+1) p 3).1 { s with imOut := writeN s.imOut p (icnTailVal a s n i) } b
        · exact (ih (i+1) p 2).1
            { s with imOut := writeN s.imOut p (s.imOut p ||| (icnTailVal a s n i <<< 2)) } b
        · exact (ih (i+1) p 1).1
            { s with imOut := writeN s.imOut p (s.imOut p ||| (icnTailVal a s n i <<< 4)) } b
        · exact (ih (i+1) (p+1) (per - 4)).1
            { s with imOut := writeN s.imOut p (s.imOut p ||| (icnTailVal a s n i <<< 6)) } b
        · exact (ih (i+1) p per).1 s b
      · intro s
        show Frame s (icnTailGo a n (t+1) i p per s)
        simp only [icnTailGo]
        split_ifs <;>
          exact frame_trans ⟨rfl, rfl, rfl, rfl, rfl, rfl, rfl, rfl⟩ ((ih _ _ _).2 _)

theorem run_setB_frame (chain : Loc → Loc) (tail : Nat → ConvState → ConvState)
    (hc : PL chain)
    (ht1 : ∀ p s b, tail p (setB s b) = setB (tail p s) b)
    (ht2 : ∀ p s, Frame s (tail p s)) :
    (∀ s b,
      (if (chain ⟨0, 0, setB s b⟩).pB ≠ 0 then
         tail (chain ⟨0, 0, setB s b⟩).pOut (chain ⟨0, 0, setB s b⟩).s
       else (chain ⟨0, 0, setB s b⟩).s) =
        setB (if (chain ⟨0, 0, s⟩).pB ≠ 0 then
          tail (chain ⟨0, 0, s⟩).pOut (chain ⟨0, 0, s⟩).s else (chain ⟨0, 0, s⟩).s) b) ∧
    (∀ s, Frame s (if (chain ⟨0, 0, s⟩).pB ≠ 0 then
         tail (chain ⟨0, 0, s⟩).pOut (chain ⟨0, 0, s⟩).s else (chain ⟨0, 0, s⟩).s)) := by
  constructor
  · intro s b
    have hch : chain ⟨0, 0, setB s b⟩ = locSetB (chain ⟨0, 0, s⟩) b := hc.1 ⟨0, 0, s⟩ b
    rw [hch, setB_ite]
    simp only [locSetB]
    split
    · exact ht1 _ _ _
    · rfl
  · intro s
    have h1 : Frame s (chain ⟨0, 0, s⟩).s := hc.2 ⟨0, 0, s⟩
    split
    · exact frame_trans h1 (ht2 _ _)
    · exact h1

theorem pl_icnRun (a : IcnArgs) :
    (∀ s b, icnRun a (setB s b) = setB (icnRun a s) b) ∧ (∀ s, Frame s (icnRun a s)) := by
  set n := a.chIn * a.dimK * a.dimK with hn
  set midYs := intRange a.padT ((a.dimOut : Int) - a.padB) with hmid
  have hchain : PL (fun L =>
      icnRegion a n icnFillBoth
        (intRange (max (a.padT : Int) ((a.dimOut : Int) - a.padB)) a.dimOut)
        (intRange 0 a.dimOut)
        (icnRegion a n icnFillX midYs
          (intRange (max (a.padL : Int) ((a.dimOut : Int) - a.padR)) a.dimOut)
          (icnRegion a n icnFillMid midYs (intRange a.padL ((a.dimOut : Int) - a.padR))
            (icnRegion a n icnFillX midYs (intRange 0 a.padL)
              (icnRegion a n icnFillBoth (intRange 0 a.padT) (intRange 0 a.dimOut) L))))) := by
    refine pl_comp (pl_comp (pl_comp (pl_comp ?_ ?_) ?_) ?_) ?_
    · exact pl_icnRegion a n icnFillBoth (fun oy ox => pl_icnFillBoth a oy ox) _ _
    · exact pl_icnRegion a n icnFillX (fun oy ox => pl_icnFillX a oy ox) _ _
    · exact pl_icnRegion a n icnFillMid (fun oy ox => pl_icnFillMid a oy ox) _ _
    · exact pl_icnRegion a n icnFillX (fun oy ox => pl_icnFillX a oy ox) _ _
    · exact pl_icnRegion a n icnFillBoth (fun oy ox => pl_icnFillBoth a oy ox) _ _
  have hmain := run_setB_frame _ (fun p s => icnTail a n p s) hchain
    (fun p s b => (pl_icnTailGo a n a.chOut 0 p 4).1 s b)
    (fun p s => (pl_icnTailGo a n a.chOut 0 p 4).2 s)
  exact ⟨fun s b => hmain.1 s b, fun s => hmain.2 s⟩

theorem pl_thrCellYX (a : ThrArgs) (iky ikx : Int) :
    PL (fun L => ⟨L.pB + a.chIn, L.pOut, thrCellYX a L.s L.pB iky ikx⟩) := by
  constructor
  · intro L b
    show (⟨L.pB + a.chIn, L.pOut, thrCellYX a (setB L.s b) L.pB iky ikx⟩ : Loc) = _
    unfold thrCellYX
    split <;> rfl
  · intro L
    show Frame L.s (thrCellYX a L.s L.pB iky ikx)
    unfold thrCellYX
    split <;> exact bufWriteSeq_frame _ _ _ _

theorem pl_thrCellX (a : ThrArgs) (iky ikx : Int) :
    PL (fun L => ⟨L.pB + a.chIn, L.pOut, thrCellX a L.s L.pB iky ikx⟩) := by
  constructor
  · intro L b
    show (⟨L.pB + a.chIn, L.pOut, thrCellX a (setB L.s b) L.pB iky ikx⟩ : Loc) = _
    unfold thrCellX
    split <;> rfl
  · intro L
    show Frame L.s (thrCellX a L.s L.pB iky ikx)
    unfold thrCellX
    split <;> exact bufWriteSeq_frame _ _ _ _

theorem pl_thrFillRow (a : ThrArgs) (cell : ThrArgs → ConvState → Nat → Int → Int → ConvState)
    (hc : ∀ (iky ikx : Int), PL (fun L => ⟨L.pB + a.chIn, L.pOut, cell a L.s L.pB iky ikx⟩))
    (iky x0 : Int) : PL (fun L => thrFillRow cell a iky x0 L) := by
  unfold thrFillRow
  exact pl_foldl _ (fun ikx => hc iky ikx) _

theorem pl_thrFillBoth (a : ThrArgs) (oy ox : Int) : PL (fun L => thrFillBoth a oy ox L) := by
  unfold thrFillBoth
  exact pl_foldl _ (fun iky => pl_thrFillRow a thrCellYX (pl_thrCellYX a) iky _) _

theorem pl_thrFillX (a : ThrArgs) (oy ox : Int) : PL (fun L => thrFillX a oy ox L) := by
  unfold thrFillX
  exact pl_foldl _ (fun iky => pl_thrFillRow a thrCellX (pl_thrCellX a) iky _) _

theorem pl_thrFillMid (a : ThrArgs) (oy ox : Int) : PL (fun L => thrFillMid a oy ox L) := by
  unfold thrFillMid
  apply pl_foldl
  intro iky
  constructor
  · intro L b; rfl
  · intro L; exact bufWriteSeq_frame _ _ _ _

theorem pl_thrDispatch (a : ThrArgs) (n : Nat) : PL (fun L => thrDispatch a n L) := by
  constructor
  · intro L b; rfl
  · intro L
    show Frame L.s (thrDispatch a n L).s
    unfold thrDispatch
    exact frame_trans (outWriteSeq_frame _ _ _ _) (outWriteSeq_frame _ _ _ _)

theorem pl_thrAfter (a : ThrArgs) (n : Nat) : PL (fun L => thrAfter a n L) := by
  constructor
  · intro L b
    show (if (locSetB L b).pB = 2 * n then thrDispatch a n (locSetB L b) else locSetB L b) = _
    rw [show (locSetB L b).pB = L.pB from rfl]
    unfold thrAfter
    rw [locSetB_ite]
    split
    · exact (pl_thrDispatch a n).1 L b
    · rfl
  · intro L
    show Frame L.s (thrAfter a n L).s
    unfold thrAfter
    split
    · exact (pl_thrDispatch a n).2 L
    · exact frame_self _

theorem pl_thrRegion (a : ThrArgs) (n : Nat)
    (fill : ThrArgs → Int → Int → Loc → Loc)
    (hf : ∀ oy ox, PL (fun L => fill a oy ox L)) (ys xs : List Int) :
    PL (fun L => thrRegion a n fill ys xs L) := by
  unfold thrRegion
  apply pl_foldl
  intro oy
  apply pl_foldl
  intro ox
  exact pl_comp (hf oy ox) (pl_thrAfter a n)

theorem thrTailSum_setB (s : ConvState) (b : Nat → Nat) (n i : Nat) :
    thrTailSum (setB s b) n i = thrTailSum s n i := rfl

theorem pl_thrTail (n : Nat) :
    ∀ (cnt i p : Nat),
      (∀ s b, thrTail n cnt i p (setB s b) = setB (thrTail n cnt i p s) b) ∧
      (∀ s, Frame s (thrTail n cnt i p s)) := by
  intro cnt
  induction cnt with
  | zero => intro i p; exact ⟨fun s b => rfl, fun s => frame_self s⟩
  | succ t ih =>
      intro i p
      constructor
      · intro s b
        show thrTail n (t+1) i p (setB s b) = _
        simp only [thrTail, thrTailSum_setB, setB_imOut, setB_imIn, setB_wt, setB_bias,
          setB_mZero, setB_nZero, setB_zWtArr, setB_thr, setB_bufA, setB_bufB]
        exact (ih (i+1) (p+1)).1
          { s with imOut := writeN s.imOut p (usat (thrTailSum s n i) 8).toNat } b
      · intro s
        show Frame s (thrTail n (t+1) i p s)
        simp only [thrTail]
        exact frame_trans ⟨rfl, rfl, rfl, rfl, rfl, rfl, rfl, rfl⟩ ((ih _ _).2 _)

theorem pl_thrRun (a : ThrArgs) :
    (∀ s b, thrRun a (setB s b) = setB (thrRun a s) b) ∧ (∀ s, Frame s (thrRun a s)) := by
  set n := a.chIn * a.dimK * a.dimK with hn
  set midYs := intRange a.padT ((a.dimOut : Int) - a.padB) with hmid
  have hchain : PL (fun L =>
      thrRegion a n thrFillBoth
        (intRange (max (a.padT : Int) ((a.dimOut : Int) - a.padB)) a.dimOut)
        (intRange 0 a.dimOut)
        (thrRegion a n thrFillX midYs
          (intRange (max (a.padL : Int) ((a.dimOut : Int) - a.padR)) a.dimOut)
          (thrRegion a n thrFillMid midYs (intRange a.padL ((a.dimOut : Int) - a.padR))
            (thrRegion a n thrFillX midYs (intRange 0 a.padL)
              (thrRegion a n thrFillBoth (intRange 0 a.padT) (intRange 0 a.dimOut) L))))) := by
    refine pl_comp (pl_comp (pl_comp (pl_comp ?_ ?_) ?_) ?_) ?_
    · exact pl_thrRegion a n thrFillBoth (fun oy ox => pl_thrFillBoth a oy ox) _ _
    · exact pl_thrRegion a n thrFillX (fun oy ox => pl_thrFillX a oy ox) _ _
    · exact pl_thrRegion a n thrFillMid (fun oy ox => pl_thrFillMid a oy ox) _ _
    · exact pl_thrRegion a n thrFillX (fun oy ox => pl_thrFillX a oy ox) _ _
    · exact pl_thrRegion a n thrFillBoth (fun oy ox => pl_thrFillBoth a oy ox) _ _
  have hmain := run_setB_frame _ (fun p s => thrTail n a.chOut 0 p s) hchain
    (fun p s b => (pl_thrTail n a.chOut 0 p).1 s b)
    (fun p s => (pl_thrTail n a.chOut 0 p).2 s)
  exact ⟨fun s b => hmain.1 s b, fun s => hmain.2 s⟩

/-- C10: for every call to either convolution function, `bufferB` is never
read (replacing it in the input state only replaces it, unchanged, in the
result) nor written, and no store is performed through `Im_in`, `wt`, `bias`
or the quantization parameter arrays (`m_zero`, `n_zero`, `z_wt`,
`thresholds`): `Frame` says all those state fields are returned unchanged,
so all writes target only `bufferA` and `Im_out`. -/
theorem conv_frame_and_bufferB_oblivious (ai : IcnArgs) (ta : ThrArgs)
    (s : ConvState) (b : Nat → Nat) :
    ((arm_convolve_HWC_u2_u2_u8_icn ai (setB s b)).1 =
        (arm_convolve_HWC_u2_u2_u8_icn ai s).1 ∧
      (arm_convolve_HWC_u2_u2_u8_icn ai (setB s b)).2 =
        setB (arm_convolve_HWC_u2_u2_u8_icn ai s).2 b ∧
      Frame s (arm_convolve_HWC_u2_u2_u8_icn ai s).2) ∧
    ((arm_convolve_HWC_u8_u8_u2_PACT_CH_thr ta (setB s b)).1 =
        (arm_convolve_HWC_u8_u8_u2_PACT_CH_thr ta s).1 ∧
      (arm_convolve_HWC_u8_u8_u2_PACT_CH_thr ta (setB s b)).2 =
        setB (arm_convolve_HWC_u8_u8_u2_PACT_CH_thr ta s).2 b ∧
      Frame s (arm_convolve_HWC_u8_u8_u2_PACT_CH_thr ta s).2) := by
  constructor
  · by_cases h : ai.chIn % 16 ≠ 0 ∨ ai.chOut % 16 ≠ 0
    · have e1 : ∀ t, arm_convolve_HWC_u2_u2_u8_icn ai t = (.sizeMismatch, t) := by
        intro t; unfold arm_convolve_HWC_u2_u2_u8_icn; rw [if_pos h]
      rw [e1, e1]
      exact ⟨rfl, rfl, frame_self s⟩
    · have e1 : ∀ t, arm_convolve_HWC_u2_u2_u8_icn ai t = (.success, icnRun ai t) := by
        intro t; unfold arm_convolve_HWC_u2_u2_u8_icn; rw [if_neg h]
      rw [e1, e1]
      exact ⟨rfl, (pl_icnRun ai).1 s b, (pl_icnRun ai).2 s⟩
  · by_cases h : ta.chIn % 4 ≠ 0 ∨ ta.chOut % 4 ≠ 0
    · have e1 : ∀ t, arm_convolve_HWC_u8_u8_u2_PACT_CH_thr ta t = (.sizeMismatch, t) := by
        intro t; unfold arm_convolve_HWC_u8_u8_u2_PACT_CH_thr; rw [if_pos h]
      rw [e1, e1]
      exact ⟨rfl, rfl, frame_self s⟩
    · have e1 : ∀ t, arm_convolve_HWC_u8_u8_u2_PACT_CH_thr ta t = (.success, thrRun ta t) := by
        intro t; unfold arm_convolve_HWC_u8_u8_u2_PACT_CH_thr; rw [if_neg h]
      rw [e1, e1]
      exact ⟨rfl, (pl_thrRun ta).1 s b, (pl_thrRun ta).2 s⟩

/-- C6: each convolution function checks only channel-count divisibility
(modulo 16 for arm_convolve_HWC_u2_u2_u8_icn, modulo 4 for
arm_convolve_HWC_u8_u8_u2_PACT_CH_thr); on failure it returns
ARM_MATH_SIZE_MISMATCH immediately with the entire memory state — in
particular the output tensor and the scratch buffer — untouched, and
otherwise it returns ARM_MATH_SUCCESS. -/
theorem conv_status_check (ai : IcnArgs) (ta : ThrArgs) (s : ConvState) :
    (((arm_convolve_HWC_u2_u2_u8_icn ai s).1 = ArmStatus.sizeMismatch ↔
        (ai.chIn % 16 ≠ 0 ∨ ai.chOut % 16 ≠ 0)) ∧
      ((ai.chIn % 16 ≠ 0 ∨ ai.chOut % 16 ≠ 0) →
        (arm_convolve_HWC_u2_u2_u8_icn ai s).2 = s) ∧
      ((ai.chIn % 16 = 0 ∧ ai.chOut % 16 = 0) →
        (arm_convolve_HWC_u2_u2_u8_icn ai s).1 = ArmStatus.success)) ∧
    (((arm_convolve_HWC_u8_u8_u2_PACT_CH_thr ta s).1 = ArmStatus.sizeMismatch ↔
        (ta.chIn % 4 ≠ 0 ∨ ta.chOut % 4 ≠ 0)) ∧
      ((ta.chIn % 4 ≠ 0 ∨ ta.chOut % 4 ≠ 0) →
        (arm_convolve_HWC_u8_u8_u2_PACT_CH_thr ta s).2 = s) ∧
      ((ta.chIn % 4 = 0 ∧ ta.chOut % 4 = 0) →
        (arm_convolve_HWC_u8_u8_u2_PACT_CH_thr ta s).1 = ArmStatus.success)) := by
  constructor
  · by_cases h : ai.chIn % 16 ≠ 0 ∨ ai.chOut % 16 ≠ 0
    · have e1 : arm_convolve_HWC_u2_u2_u8_icn ai s = (.sizeMismatch, s) := by
        unfold arm_convolve_HWC_u2_u2_u8_icn; rw [if_pos h]
      rw [e1]
      exact ⟨by simp [h], fun _ => rfl, fun hc => by tauto⟩
    · have e1 : arm_convolve_HWC_u2_u2_u8_icn ai s = (.success, icnRun ai s) := by
        unfold arm_convolve_HWC_u2_u2_u8_icn; rw [if_neg h]
      rw [e1]
      refine ⟨by simp [h], fun hc => absurd hc h, fun _ => rfl⟩
  · by_cases h : ta.chIn % 4 ≠ 0 ∨ ta.chOut % 4 ≠ 0
    · have e1 : arm_convolve_HWC_u8_u8_u2_PACT_CH_thr ta s = (.sizeMismatch, s) := by
        unfold arm_convolve_HWC_u8_u8_u2_PACT_CH_thr; rw [if_pos h]
      rw [e1]
      exact ⟨by simp [h], fun _ => rfl, fun hc => by tauto⟩
    · have e1 : arm_convolve_HWC_u8_u8_u2_PACT_CH_thr ta s = (.success, thrRun ta s) := by
        unfold arm_convolve_HWC_u8_u8_u2_PACT_CH_thr; rw [if_neg h]
      rw [e1]
      refine ⟨by simp [h], fun hc => absurd hc h, fun _ => rfl⟩

/-- Witness for `conv_status_check`: a call with `ch_im_in = 3` is rejected
by the icn variant with the state untouched, and a call with channel counts
4 succeeds in the thr variant. -/
theorem conv_status_check_witness :
    (arm_convolve_HWC_u2_u2_u8_icn ⟨2, 3, 16, 1, 0, 0, 0, 0, 1, 2, 0, 0, 0⟩ zeroState).2 =
        zeroState ∧
      (arm_convolve_HWC_u8_u8_u2_PACT_CH_thr ⟨2, 4, 4, 1, 0, 0, 0, 0, 1, 2, 0⟩
          zeroState).1 = ArmStatus.success :=
  ⟨((conv_status_check ⟨2, 3, 16, 1, 0, 0, 0, 0, 1, 2, 0, 0, 0⟩
        ⟨2, 4, 4, 1, 0, 0, 0, 0, 1, 2, 0⟩ zeroState).1).2.1 (by decide),
   ((conv_status_check ⟨2, 3, 16, 1, 0, 0, 0, 0, 1, 2, 0, 0, 0⟩
        ⟨2, 4, 4, 1, 0, 0, 0, 0, 1, 2, 0⟩ zeroState).2).2.2 (by decide)⟩

/-! ## C5: padding semantics of the bounds-checked im2col cells -/

theorem bufWriteSeq_congr (s : ConvState) (dst n : Nat) (f g : Nat → Int)
    (h : ∀ k, k < n → f k = g k) : bufWriteSeq s dst n f = bufWriteSeq s dst n g := by
  unfold bufWriteSeq
  have hfg : (fun j => if dst ≤ j ∧ j < dst + n then f (j - dst) else s.bufferA j) =
      fun j => if dst ≤ j ∧ j < dst + n then g (j - dst) else s.bufferA j := by
    funext j
    split
    · next hc => exact h (j - dst) (by omega)
    · rfl
  rw [hfg]

/-- C5 (amended): an out-of-bounds receptive-field sample is treated as the
quantized value `z_in` — the `memset` stores working value 0, which is what
the codec produces for a sample equal to the input zero point — so the
bounds-checked im2col cell over the real image is bit-identical to an
unchecked codec copy over an input manually padded with `z_in` (not with
quantized 0), for both convolution functions. -/
theorem im2col_padding_equals_zin_padding :
    (∀ (a : ThrArgs) (s : ConvState) (pB : Nat) (iky ikx : Int),
      thrCellYX a s pB iky ikx =
        bufWriteSeq s pB a.chIn (fun k => thrPadSample a s a.zIn iky ikx k)) ∧
    (∀ (a : IcnArgs) (s : ConvState) (pB : Nat) (iky ikx : Int), 4 ∣ a.chIn →
      icnCellYX a s pB iky ikx =
        bufWriteSeq s pB a.chIn (fun k => icnPadSample a s a.zIn iky ikx k)) := by
  constructor
  · intro a s pB iky ikx
    unfold thrCellYX
    by_cases h : iky < 0 ∨ iky ≥ (a.dimIn : Int) ∨ ikx < 0 ∨ ikx ≥ (a.dimIn : Int)
    · rw [if_pos h]
      apply bufWriteSeq_congr
      intro k hk
      unfold thrPadSample
      rw [if_neg (by omega)]
      simp
    · rw [if_neg h]
      apply bufWriteSeq_congr
      intro k hk
      unfold thrCodecVal thrPadSample
      rw [if_pos (by omega)]
  · intro a s pB iky ikx hch
    unfold icnCellYX
    by_cases h : iky < 0 ∨ iky ≥ (a.dimIn : Int) ∨ ikx < 0 ∨ ikx ≥ (a.dimIn : Int)
    · rw [if_pos h]
      apply bufWriteSeq_congr
      intro k hk
      unfold icnPadSample
      rw [if_neg (by omega)]
      simp
    · rw [if_neg h]
      apply bufWriteSeq_congr
      intro k hk
      unfold icnCodecVal icnPadSample u2elemI
      rw [if_pos (by omega)]
      obtain ⟨c, hc⟩ := hch
      have hdvd : (4 : Int) ∣ (iky * a.dimIn + ikx) * a.chIn := by
        refine Dvd.dvd.mul_left ?_ _
        exact ⟨(c : Int), by exact_mod_cast congrArg (Nat.cast : Nat → Int) hc⟩
      have hq : (iky * a.dimIn + ikx) * a.chIn / 4 + ((k / 4 : Nat) : Int) =
          ((iky * a.dimIn + ikx) * a.chIn + (k : Int)) / 4 := by
        obtain ⟨m, hm⟩ := hdvd
        omega
      have hr : (((iky * a.dimIn + ikx) * a.chIn + (k : Int)) % 4).toNat = k % 4 := by
        obtain ⟨m, hm⟩ := hdvd
        omega
      rw [hq, hr]

/-- C5 counterexample: with input zero point `z_in = 1`, the out-of-bounds
cell at `i_ker_y = -1` is stored as working value 0 by the bounds-checked
im2col cell, but the codec over a manually zero-padded input (pad elements
holding quantized value 0) would store `0 - z_in = -1`: the two extractions
differ in the first buffer cell. -/
theorem im2col_zero_padding_refuted :
    (thrCellYX ⟨1, 1, 1, 1, 0, 0, 1, 0, 1, 1, 1⟩ zeroState 0 (-1) 0).bufferA 0 ≠
      (bufWriteSeq zeroState 0 1
        (fun k => thrPadSample ⟨1, 1, 1, 1, 0, 0, 1, 0, 1, 1, 1⟩ zeroState 0 (-1) 0 k)).bufferA
        0 := by
  decide

/-- Witness for `im2col_padding_equals_zin_padding` at concrete cells lying
above the image (`i_ker_y = -1`). -/
theorem im2col_padding_witness :
    thrCellYX ⟨1, 1, 1, 1, 0, 0, 1, 0, 1, 1, 1⟩ zeroState 0 (-1) 0 =
      bufWriteSeq zeroState 0 1
        (fun k => thrPadSample ⟨1, 1, 1, 1, 0, 0, 1, 0, 1, 1, 1⟩ zeroState 1 (-1) 0 k) ∧
    icnCellYX ⟨1, 4, 16, 1, 0, 0, 1, 0, 1, 1, 1, 0, 0⟩ zeroState 0 (-1) 0 =
      bufWriteSeq zeroState 0 4
        (fun k => icnPadSample ⟨1, 4, 16, 1, 0, 0, 1, 0, 1, 1, 1, 0, 0⟩ zeroState 1 (-1) 0 k) :=
  ⟨im2col_padding_equals_zin_padding.1 ⟨1, 1, 1, 1, 0, 0, 1, 0, 1, 1, 1⟩ zeroState 0 (-1) 0,
   im2col_padding_equals_zin_padding.2 ⟨1, 4, 16, 1, 0, 0, 1, 0, 1, 1, 1, 0, 0⟩ zeroState 0
     (-1) 0 (by decide)⟩

/-! ## C1: the mid-part bulk copy computes its x offset with `top_padding` -/

/-- C1: at the interior (mid-path) output position `(i_out_y, i_out_x) =
(1, 1)` of a geometry with `top_padding = 1` and `left_padding = 0`, the
bulk row copy of both convolution functions fills the scratch buffer with
the receptive-field row whose x origin is `i_out_x*stride - top_padding`
(= 0), not the origin `i_out_x*stride - left_padding` (= 1) that the claim
prescribes: the code computes the x offset of the interior copy with
`top_padding` (sources: arm_convolve_HWC_u8_u8_u2_PACT_CH_thr line 209,
arm_convolve_HWC_u2_u2_u8_icn line 217). -/
theorem midpath_x_origin_uses_top_padding :
    ((∀ k, k < 4 →
        (thrFillMid thrC1Args 1 1 ⟨0, 0, imgState⟩).s.bufferA k =
          thrFieldVal thrC1Args imgState 0 (1 * 1 - thrC1Args.padT) k) ∧
      ¬ (∀ k, k < 4 →
        (thrFillMid thrC1Args 1 1 ⟨0, 0, imgState⟩).s.bufferA k =
          thrFieldVal thrC1Args imgState 0 (1 * 1 - thrC1Args.padL) k)) ∧
    ((∀ k, k < 16 →
        (icnFillMid icnC1Args 1 1 ⟨0, 0, imgState2⟩).s.bufferA k =
          icnFieldVal icnC1Args imgState2 0 (1 * 1 - icnC1Args.padT) k) ∧
      ¬ (∀ k, k < 16 →
        (icnFillMid icnC1Args 1 1 ⟨0, 0, imgState2⟩).s.bufferA k =
          icnFieldVal icnC1Args imgState2 0 (1 * 1 - icnC1Args.padL) k)) := by
  decide

/-! ## Packed-output characterization of the icn tail -/

theorem writeN_same (f : Nat → Nat) (p x y : Nat) :
    writeN (writeN f p x) p y = writeN f p y := by
  funext j
  unfold writeN
  split <;> rfl

theorem writeN_read (f : Nat → Nat) (p x : Nat) : writeN f p x p = x := by
  unfold writeN
  simp

theorem writeN_other (f : Nat → Nat) (p x j : Nat) (h : j ≠ p) : writeN f p x j = f j := by
  unfold writeN
  simp [h]

theorem usat2_toNat_lt (x : Int) : (usat x 2).toNat < 4 := by
  unfold usat
  omega

theorem usat4_toNat_lt (x : Int) : (usat x 4).toNat < 16 := by
  unfold usat
  omega

theorem lor_decomp_all :
    ∀ v0 < 4, ∀ v1 < 4, ∀ v2 < 4, ∀ v3 < 4,
      ((v0 ||| v1 <<< 2) ||| v2 <<< 4) ||| v3 <<< 6 = v0 + 4*v1 + 16*v2 + 64*v3 := by
  decide

theorem icnTailVal_imOut (a : IcnArgs) (s : ConvState) (X : Nat → Nat) (n i : Nat) :
    icnTailVal a { s with imOut := X } n i = icnTailVal a s n i := rfl

theorem icnTailGo_s4 (a : IcnArgs) (n cnt i p : Nat) (s : ConvState) :
    icnTailGo a n (cnt+1) i p 4 s =
      icnTailGo a n cnt (i+1) p 3 { s with imOut := writeN s.imOut p (icnTailVal a s n i) } := by
  simp [icnTailGo]

theorem icnTailGo_s3 (a : IcnArgs) (n cnt i p : Nat) (s : ConvState) :
    icnTailGo a n (cnt+1) i p 3 s =
      icnTailGo a n cnt (i+1) p 2
        { s with imOut := writeN s.imOut p (s.imOut p ||| (icnTailVal a s n i <<< 2)) } := by
  simp [icnTailGo]

theorem icnTailGo_s2 (a : IcnArgs) (n cnt i p : Nat) (s : ConvState) :
    icnTailGo a n (cnt+1) i p 2 s =
      icnTailGo a n cnt (i+1) p 1
        { s with imOut := writeN s.imOut p (s.imOut p ||| (icnTailVal a s n i <<< 4)) } := by
  simp [icnTailGo]

theorem icnTailGo_s1 (a : IcnArgs) (n cnt i p : Nat) (s : ConvState) :
    icnTailGo a n (cnt+1) i p 1 s =
      icnTailGo a n cnt (i+1) (p+1) (-3)
        { s with imOut := writeN s.imOut p (s.imOut p ||| (icnTailVal a s n i <<< 6)) } := by
  simp [icnTailGo]

theorem icnTailGo_stuck (a : IcnArgs) (n : Nat) :
    ∀ (cnt i p : Nat) (s : ConvState), icnTailGo a n cnt i p (-3) s = s := by
  intro cnt
  induction cnt with
  | zero => intro i p s; rfl
  | succ t ih =>
      intro i p s
      have h : icnTailGo a n (t+1) i p (-3) s = icnTailGo a n t (i+1) p (-3) s := by
        simp [icnTailGo]
      rw [h]
      exact ih (i+1) p s

theorem icnTailGo_from4 (a : IcnArgs) (n r i p : Nat) (s : ConvState) :
    icnTailGo a n (4 + r) i p 4 s =
      { s with imOut := writeN s.imOut p (icnTailByte a s n i) } := by
  have e0 : 4 + r = (3 + r) + 1 := by omega
  have e1 : 3 + r = (2 + r) + 1 := by omega
  have e2 : 2 + r = (1 + r) + 1 := by omega
  have e3 : 1 + r = r + 1 := by omega
  rw [e0, icnTailGo_s4, e1, icnTailGo_s3, e2, icnTailGo_s2, e3, icnTailGo_s1,
    icnTailGo_stuck a n]
  simp only [icnTailVal_imOut, writeN_same, writeN_read]
  have hb : icnTailVal a s n i |||
        icnTailVal a s n (i+1) <<< 2 |||
        icnTailVal a s n (i+2) <<< 4 |||
        icnTailVal a s n (i+3) <<< 6 = icnTailByte a s n i := by
    unfold icnTailByte icnTailVal
    exact lor_decomp_all _ (usat2_toNat_lt _) _ (usat2_toNat_lt _) _ (usat2_toNat_lt _) _
      (usat2_toNat_lt _)
  rw [hb]

/-- C7: refuted as stated — the source does execute the claimed fold
`__USAT(((sum << n_zero1) *_hi m_zero[i]) >> n_zero2 + z_out, 2)` for every
tail channel, but its store counter `pOut_per_byte` is decremented by 4 in
`case 1` (source line 404), where it equals 1: the counter becomes `-3`,
no later switch case matches, and channels from 4 on are never stored.
Concretely, with `ch_im_out = 8` over the all-zero state and `z_out = 2`:
channel 0's 2-bit slot carries the prescribed folded value, the prescribed
folded value for channel 4 is 2, yet channel 4's slot (in output byte
`p0 + 4/4`, never written) reads 0. -/
theorem icn_tail_store_counter_slip :
    (icnTail icnC7Args 4 0 zeroState).imOut 0 / 4 ^ (0 % 4) % 4 =
      (usat (icnFold (icnTailSum icnC7Args zeroState 4 0) (i32 (zeroState.mZero 0))
        (i8 (zeroState.nZero 0)) icnC7Args.zOut) 2).toNat ∧
    (usat (icnFold (icnTailSum icnC7Args zeroState 4 4) (i32 (zeroState.mZero 4))
        (i8 (zeroState.nZero 4)) icnC7Args.zOut) 2).toNat = 2 ∧
    (icnTail icnC7Args 4 0 zeroState).imOut (0 + 4 / 4) / 4 ^ (4 % 4) % 4 = 0 := by
  decide

/-! ## Output characterization of the u4 kernel row loop -/

theorem u4RowLoopGo_out (wA : Nat → Nat) (buf : Nat → Int) (bias : Nat → Int)
    (zA : Nat → Nat) (thr : Nat → Int) (n : Nat) :
    ∀ (cnt i eA p p2 : Nat) (out : Nat → Nat), p + cnt ≤ p2 → ∀ j,
      (u4RowLoopGo wA buf bias zA thr n cnt i eA p p2 out).1 j =
        if p ≤ j ∧ j < p + cnt then
          u4PairByte1 wA buf bias zA thr n (i + 2 * (j - p))
            (eA + (j - p) * (16 * (n >>> 4) + 4 * (n >>> 2)))
        else if p2 ≤ j ∧ j < p2 + cnt then
          u4PairByte2 wA buf bias zA thr n (i + 2 * (j - p2))
            (eA + (j - p2) * (16 * (n >>> 4) + 4 * (n >>> 2)))
        else out j := by
  intro cnt
  induction cnt with
  | zero =>
      intro i eA p p2 out hsep j
      rw [if_neg (by omega), if_neg (by omega)]
      rfl
  | succ t ih =>
      intro i eA p p2 out hsep j
      have hstep : u4RowLoopGo wA buf bias zA thr n (t+1) i eA p p2 out =
          u4RowLoopGo wA buf bias zA thr n t (i+2) (eA + 16 * (n >>> 4) + 4 * (n >>> 2))
            (p+1) (p2+1)
            (writeN (writeN out p (u4PairByte1 wA buf bias zA thr n i eA))
              p2 (u4PairByte2 wA buf bias zA thr n i eA)) := by
        simp only [u4RowLoopGo]
      rw [hstep, ih (i+2) _ (p+1) (p2+1) _ (by omega) j]
      by_cases c1 : p + 1 ≤ j ∧ j < p + 1 + t
      · have hm : (j - p) * (16 * (n >>> 4) + 4 * (n >>> 2)) =
            (j - (p+1)) * (16 * (n >>> 4) + 4 * (n >>> 2)) +
              (16 * (n >>> 4) + 4 * (n >>> 2)) := by
          rw [show j - p = (j - (p+1)) + 1 by omega, Nat.succ_mul]
        rw [if_pos c1, if_pos (show p ≤ j ∧ j < p + (t+1) by omega)]
        rw [show i + 2 + 2 * (j - (p+1)) = i + 2 * (j - p) by omega]
        rw [show eA + 16 * (n >>> 4) + 4 * (n >>> 2) +
              (j - (p+1)) * (16 * (n >>> 4) + 4 * (n >>> 2)) =
            eA + (j - p) * (16 * (n >>> 4) + 4 * (n >>> 2)) by omega]
      · by_cases c2 : p2 + 1 ≤ j ∧ j < p2 + 1 + t
        · have hm : (j - p2) * (16 * (n >>> 4) + 4 * (n >>> 2)) =
              (j - (p2+1)) * (16 * (n >>> 4) + 4 * (n >>> 2)) +
                (16 * (n >>> 4) + 4 * (n >>> 2)) := by
            rw [show j - p2 = (j - (p2+1)) + 1 by omega, Nat.succ_mul]
          rw [if_neg c1, if_pos c2, if_neg (show ¬(p ≤ j ∧ j < p + (t+1)) by omega),
            if_pos (show p2 ≤ j ∧ j < p2 + (t+1) by omega)]
          rw [show i + 2 + 2 * (j - (p2+1)) = i + 2 * (j - p2) by omega]
          rw [show eA + 16 * (n >>> 4) + 4 * (n >>> 2) +
                (j - (p2+1)) * (16 * (n >>> 4) + 4 * (n >>> 2)) =
              eA + (j - p2) * (16 * (n >>> 4) + 4 * (n >>> 2)) by omega]
        · rw [if_neg c1, if_neg c2]
          by_cases hp2 : j = p2
          · rw [hp2, writeN_read, if_neg (by omega), if_pos (by omega)]
            rw [show p2 - p2 = 0 by omega]
            rw [Nat.mul_zero, Nat.zero_mul, Nat.add_zero, Nat.add_zero]
          · rw [writeN_other _ _ _ _ hp2]
            by_cases hp1 : j = p
            · rw [hp1, writeN_read, if_pos (by omega)]
              rw [show p - p = 0 by omega]
              rw [Nat.mul_zero, Nat.zero_mul, Nat.add_zero, Nat.add_zero]
            · rw [writeN_other _ _ _ _ hp1, if_neg (by omega), if_neg (by omega)]

theorem nibble_decomp : ∀ a < 16, ∀ b < 16,
    (a ||| ((b <<< 4) &&& 0xF0)) % 16 = a ∧ (a ||| ((b <<< 4) &&& 0xF0)) / 16 = b := by
  decide

theorem nibble_sum : ∀ a < 16, ∀ b < 16, (a ||| ((b <<< 4) &&& 0xF0)) = a + 16 * b := by
  decide

theorem u4_kernel_out_eq (wA : Nat → Nat) (buf : Nat → Int) (ch n : Nat) (bias : Nat → Int)
    (zA : Nat → Nat) (thr : Nat → Int) (out : Nat → Nat) (p0 : Nat) :
    (arm_nn_mat_mult_kernel_reordered_u2_int16_u4_PACT_CH_thr wA buf ch n bias zA thr out
        p0).1 =
      (u4RowLoopGo wA buf bias zA thr n ((ch + 1) >>> 1) 0 0 p0 (p0 + (ch >>> 1)) out).1 := rfl

theorem shiftLeft4_eq (m : Nat) : m <<< 4 = m * 16 := by
  rw [Nat.shiftLeft_eq]

theorem u4_kernel_byte1 (wA : Nat → Nat) (buf : Nat → Int) (bias : Nat → Int)
    (zA : Nat → Nat) (thr : Nat → Int) (ch n : Nat) (out : Nat → Nat) (p0 : Nat)
    (hch : 2 ∣ ch) (i : Nat) (hi : i + 1 < ch) (hev : 2 ∣ i) :
    (arm_nn_mat_mult_kernel_reordered_u2_int16_u4_PACT_CH_thr wA buf ch n bias zA thr out
        p0).1 (p0 + i / 2) =
      u4PairByte1 wA buf bias zA thr n i ((i / 2) * (16 * (n >>> 4) + 4 * (n >>> 2))) := by
  have hs1 : (ch + 1) >>> 1 = (ch + 1) / 2 := by rw [Nat.shiftRight_eq_div_pow, pow_one]
  have hs2 : ch >>> 1 = ch / 2 := by rw [Nat.shiftRight_eq_div_pow, pow_one]
  obtain ⟨c, hc⟩ := hch
  obtain ⟨d, hd⟩ := hev
  rw [u4_kernel_out_eq,
    u4RowLoopGo_out wA buf bias zA thr n ((ch + 1) >>> 1) 0 0 p0 (p0 + (ch >>> 1)) out
      (by rw [hs1, hs2]; omega) (p0 + i / 2),
    if_pos (show p0 ≤ p0 + i / 2 ∧ p0 + i / 2 < p0 + ((ch + 1) >>> 1) by rw [hs1]; omega)]
  rw [show p0 + i / 2 - p0 = i / 2 by omega, show 0 + 2 * (i / 2) = i by omega, Nat.zero_add]

theorem u4_kernel_byte2 (wA : Nat → Nat) (buf : Nat → Int) (bias : Nat → Int)
    (zA : Nat → Nat) (thr : Nat → Int) (ch n : Nat) (out : Nat → Nat) (p0 : Nat)
    (hch : 2 ∣ ch) (i : Nat) (hi : i + 1 < ch) (hev : 2 ∣ i) :
    (arm_nn_mat_mult_kernel_reordered_u2_int16_u4_PACT_CH_thr wA buf ch n bias zA thr out
        p0).1 (p0 + (ch >>> 1) + i / 2) =
      u4PairByte2 wA buf bias zA thr n i ((i / 2) * (16 * (n >>> 4) + 4 * (n >>> 2))) := by
  have hs1 : (ch + 1) >>> 1 = (ch + 1) / 2 := by rw [Nat.shiftRight_eq_div_pow, pow_one]
  have hs2 : ch >>> 1 = ch / 2 := by rw [Nat.shiftRight_eq_div_pow, pow_one]
  obtain ⟨c, hc⟩ := hch
  obtain ⟨d, hd⟩ := hev
  rw [u4_kernel_out_eq,
    u4RowLoopGo_out wA buf bias zA thr n ((ch + 1) >>> 1) 0 0 p0 (p0 + (ch >>> 1)) out
      (by rw [hs1, hs2]; omega) (p0 + (ch >>> 1) + i / 2),
    if_neg (show ¬(p0 ≤ p0 + (ch >>> 1) + i / 2 ∧
      p0 + (ch >>> 1) + i / 2 < p0 + ((ch + 1) >>> 1)) by rw [hs1, hs2]; omega),
    if_pos (show p0 + (ch >>> 1) ≤ p0 + (ch >>> 1) + i / 2 ∧
      p0 + (ch >>> 1) + i / 2 < p0 + (ch >>> 1) + ((ch + 1) >>> 1) by rw [hs1]; omega)]
  rw [show p0 + (ch >>> 1) + i / 2 - (p0 + (ch >>> 1)) = i / 2 by omega,
    show 0 + 2 * (i / 2) = i by omega, Nat.zero_add]

/-- C8 (amended): for every even row pair `i, i+1` of the u4 kernel, the
accumulators — truncated to `int16_t` by the cast at the call of
`__int16_to_u4` — are requantized by comparison against the 16-entry
per-channel ladders based at `thresholds[i*16]` and `thresholds[(i+1)*16]`,
the ladder index saturated to 4 bits and packed (channel `i` in the low
nibble of the patch-1 byte at `pOut + i/2`, channel `i+1` in the high
nibble; patch-2 byte at `pOut + ch/2 + i/2`). -/
theorem u4_kernel_ladder_per_pair (wA : Nat → Nat) (buf : Nat → Int) (bias : Nat → Int)
    (zA : Nat → Nat) (thr : Nat → Int) (ch n : Nat) (out : Nat → Nat) (p0 : Nat)
    (hch : 2 ∣ ch) (i : Nat) (hi : i + 1 < ch) (hev : 2 ∣ i) :
    ((arm_nn_mat_mult_kernel_reordered_u2_int16_u4_PACT_CH_thr wA buf ch n bias zA thr out
        p0).1 (p0 + i / 2) % 16 =
      (usat (u4Ladder (i16 (u4PairSums wA buf bias zA n i
        ((i / 2) * (16 * (n >>> 4) + 4 * (n >>> 2)))).1) thr (i * 16)) 4).toNat) ∧
    ((arm_nn_mat_mult_kernel_reordered_u2_int16_u4_PACT_CH_thr wA buf ch n bias zA thr out
        p0).1 (p0 + i / 2) / 16 =
      (usat (u4Ladder (i16 (u4PairSums wA buf bias zA n i
        ((i / 2) * (16 * (n >>> 4) + 4 * (n >>> 2)))).2.2.1) thr ((i + 1) * 16)) 4).toNat) ∧
    ((arm_nn_mat_mult_kernel_reordered_u2_int16_u4_PACT_CH_thr wA buf ch n bias zA thr out
        p0).1 (p0 + (ch >>> 1) + i / 2) % 16 =
      (usat (u4Ladder (i16 (u4PairSums wA buf bias zA n i
        ((i / 2) * (16 * (n >>> 4) + 4 * (n >>> 2)))).2.1) thr (i * 16)) 4).toNat) ∧
    ((arm_nn_mat_mult_kernel_reordered_u2_int16_u4_PACT_CH_thr wA buf ch n bias zA thr out
        p0).1 (p0 + (ch >>> 1) + i / 2) / 16 =
      (usat (u4Ladder (i16 (u4PairSums wA buf bias zA n i
        ((i / 2) * (16 * (n >>> 4) + 4 * (n >>> 2)))).2.2.2) thr ((i + 1) * 16)) 4).toNat) := by
  rw [u4_kernel_byte1 wA buf bias zA thr ch n out p0 hch i hi hev,
    u4_kernel_byte2 wA buf bias zA thr ch n out p0 hch i hi hev]
  unfold u4PairByte1 u4PairByte2
  rw [shiftLeft4_eq i, shiftLeft4_eq (i + 1)]
  exact ⟨(nibble_decomp _ (usat4_toNat_lt _) _ (usat4_toNat_lt _)).1,
    (nibble_decomp _ (usat4_toNat_lt _) _ (usat4_toNat_lt _)).2,
    (nibble_decomp _ (usat4_toNat_lt _) _ (usat4_toNat_lt _)).1,
    (nibble_decomp _ (usat4_toNat_lt _) _ (usat4_toNat_lt _)).2⟩

/-- Witness for `u4_kernel_ladder_per_pair` at `ch_im_out = 2`,
`numCol_A = 16`, pair `i = 0`. -/
theorem u4_kernel_ladder_per_pair_witness :
    (arm_nn_mat_mult_kernel_reordered_u2_int16_u4_PACT_CH_thr (fun _ => 0) (fun _ => 0) 2 16
        (fun _ => 0) (fun _ => 0) (fun _ => 1) (fun _ => 0) 0).1 (0 + 0 / 2) % 16 =
      (usat (u4Ladder (i16 (u4PairSums (fun _ => 0) (fun _ => 0) (fun _ => 0) (fun _ => 0) 16 0
        ((0 / 2) * (16 * (16 >>> 4) + 4 * (16 >>> 2)))).1) (fun _ => 1) (0 * 16)) 4).toNat :=
  (u4_kernel_ladder_per_pair (fun _ => 0) (fun _ => 0) (fun _ => 0) (fun _ => 0) (fun _ => 1)
    2 16 (fun _ => 0) 0 (by decide) 0 (by decide) (by decide)).1

/-- C8 counterexample: with `bias[0] = 65536` (and all other inputs zero,
every threshold 1), the kernel's low output nibble is 0 — the `(int16_t)`
cast truncates the accumulator 65536 to 0 before the ladder comparison —
whereas comparing the 32-bit accumulator itself against the ladder, as the
claim states, would give the saturated ladder index 15. -/
theorem u4_kernel_untruncated_ladder_refuted :
    (arm_nn_mat_mult_kernel_reordered_u2_int16_u4_PACT_CH_thr (fun _ => 0) (fun _ => 0) 2 16
        (fun _ => 65536) (fun _ => 0) (fun _ => 1) (fun _ => 0) 0).1 (0 + 0 / 2) % 16 ≠
      (usat (u4Ladder ((u4PairSums (fun _ => 0) (fun _ => 0) (fun _ => 65536) (fun _ => 0) 16 0
        ((0 / 2) * (16 * (16 >>> 4) + 4 * (16 >>> 2)))).1) (fun _ => 1) (0 * 16)) 4).toNat := by
  decide

/-- C4 counterexample: with `ch_im_out = 2`, `numCol_A = 16`, zero weights
and unit buffer, `bias = (1, 2)` and the ladder `1..16` per channel, the two
requantized values are 1 (channel 0) and 2 (channel 1); the kernel's first
output byte is `0x21` (channel 0 in the LOW nibble), not the `0x12` that
most-significant-slot-first packing would give. -/
theorem sub_byte_packing_msb_refuted :
    (arm_nn_mat_mult_kernel_reordered_u2_int16_u4_PACT_CH_thr (fun _ => 0) (fun _ => 1) 2 16
        (fun c => (c : Int) + 1) (fun _ => 0) (fun k => ((k % 16 : Nat) : Int) + 1)
        (fun _ => 0) 0).1 0 ≠
      msbFirstPackPair
        (usat (u4Ladder (i16 (u4PairSums (fun _ => 0) (fun _ => 1) (fun c => (c : Int) + 1)
          (fun _ => 0) 16 0 0).1) (fun k => ((k % 16 : Nat) : Int) + 1) (0 * 16)) 4).toNat
        (usat (u4Ladder (i16 (u4PairSums (fun _ => 0) (fun _ => 1) (fun c => (c : Int) + 1)
          (fun _ => 0) 16 0 0).2.2.1) (fun k => ((k % 16 : Nat) : Int) + 1) (1 * 16)) 4).toNat := by
  decide

/-- C4 (amended): sub-byte outputs are packed in output-channel order with
the first (lowest-channel) value in the LEAST-significant slot of each
output byte: the u4 kernel stores channel `i`'s nibble in the low half and
channel `i+1`'s in the high half of each byte (2 values per byte), and the
icn tail stores channels 0..3 at bit offsets 0, 2, 4, 6 of its first output
byte — its only stored byte, since the `pOut_per_byte-=4` slip (see C7)
stops all stores after channel 3. -/
theorem sub_byte_packing_lsb_first :
    (∀ (wA : Nat → Nat) (buf : Nat → Int) (bias : Nat → Int) (zA : Nat → Nat)
        (thr : Nat → Int) (ch n : Nat) (out : Nat → Nat) (p0 : Nat), 2 ∣ ch →
      ∀ i, i + 1 < ch → 2 ∣ i →
        (arm_nn_mat_mult_kernel_reordered_u2_int16_u4_PACT_CH_thr wA buf ch n bias zA thr out
            p0).1 (p0 + i / 2) =
          (usat (u4Ladder (i16 (u4PairSums wA buf bias zA n i
              ((i / 2) * (16 * (n >>> 4) + 4 * (n >>> 2)))).1) thr (i * 16)) 4).toNat +
            16 * (usat (u4Ladder (i16 (u4PairSums wA buf bias zA n i
              ((i / 2) * (16 * (n >>> 4) + 4 * (n >>> 2)))).2.2.1) thr
                ((i + 1) * 16)) 4).toNat) ∧
    (∀ (a : IcnArgs) (n p0 : Nat) (s : ConvState), 4 ≤ a.chOut →
      (icnTail a n p0 s).imOut p0 =
        icnTailVal a s n 0 + 4 * icnTailVal a s n 1 +
          16 * icnTailVal a s n 2 + 64 * icnTailVal a s n 3) := by
  constructor
  · intro wA buf bias zA thr ch n out p0 hch i hi hev
    rw [u4_kernel_byte1 wA buf bias zA thr ch n out p0 hch i hi hev]
    unfold u4PairByte1
    rw [shiftLeft4_eq i, shiftLeft4_eq (i + 1)]
    exact nibble_sum _ (usat4_toNat_lt _) _ (usat4_toNat_lt _)
  · intro a n p0 s h4
    have e : icnTail a n p0 s =
        { s with imOut := writeN s.imOut p0 (icnTailByte a s n 0) } := by
      unfold icnTail
      rw [show a.chOut = 4 + (a.chOut - 4) by omega, icnTailGo_from4]
    rw [e]
    show writeN s.imOut p0 (icnTailByte a s n 0) p0 = _
    rw [writeN_read]
    rfl

/-- Witness for `sub_byte_packing_lsb_first` at the counterexample's kernel
instance and at a 4-channel icn tail. -/
theorem sub_byte_packing_lsb_first_witness :
    (arm_nn_mat_mult_kernel_reordered_u2_int16_u4_PACT_CH_thr (fun _ => 0) (fun _ => 1) 2 16
        (fun c => (c : Int) + 1) (fun _ => 0) (fun k => ((k % 16 : Nat) : Int) + 1)
        (fun _ => 0) 0).1 (0 + 0 / 2) =
      (usat (u4Ladder (i16 (u4PairSums (fun _ => 0) (fun _ => 1) (fun c => (c : Int) + 1)
          (fun _ => 0) 16 0 ((0 / 2) * (16 * (16 >>> 4) + 4 * (16 >>> 2)))).1)
        (fun k => ((k % 16 : Nat) : Int) + 1) (0 * 16)) 4).toNat +
        16 * (usat (u4Ladder (i16 (u4PairSums (fun _ => 0) (fun _ => 1) (fun c => (c : Int) + 1)
          (fun _ => 0) 16 0 ((0 / 2) * (16 * (16 >>> 4) + 4 * (16 >>> 2)))).2.2.1)
            (fun k => ((k % 16 : Nat) : Int) + 1) (1 * 16)) 4).toNat ∧
    (icnTail ⟨1, 4, 4, 1, 0, 0, 0, 0, 1, 1, 0, 0, 2⟩ 4 0 zeroState).imOut 0 =
      icnTailVal ⟨1, 4, 4, 1, 0, 0, 0, 0, 1, 1, 0, 0, 2⟩ zeroState 4 0 +
        4 * icnTailVal ⟨1, 4, 4, 1, 0, 0, 0, 0, 1, 1, 0, 0, 2⟩ zeroState 4 1 +
        16 * icnTailVal ⟨1, 4, 4, 1, 0, 0, 0, 0, 1, 1, 0, 0, 2⟩ zeroState 4 2 +
        64 * icnTailVal ⟨1, 4, 4, 1, 0, 0, 0, 0, 1, 1, 0, 0, 2⟩ zeroState 4 3 :=
  ⟨sub_byte_packing_lsb_first.1 (fun _ => 0) (fun _ => 1) (fun c => (c : Int) + 1)
      (fun _ => 0) (fun k => ((k % 16 : Nat) : Int) + 1) 2 16 (fun _ => 0) 0 (by decide) 0
      (by decide) (by decide),
   sub_byte_packing_lsb_first.2 ⟨1, 4, 4, 1, 0, 0, 0, 0, 1, 1, 0, 0, 2⟩ 4 0 zeroState
      (by decide)⟩

/-! ## C2: the tail path of the thr convolution skips threshold folding -/

set_option maxRecDepth 4096 in
/-- C2: on the leftover patch with `numCol = 4` (so `ch_im_in = 4`,
`dim_kernel = 1`), channel 0 of the tail path of
arm_convolve_HWC_u8_u8_u2_PACT_CH_thr stores `__USAT(sum, 8) = 4` — no
threshold folding is applied (the source marks the normalization as missing
with `#warning` and its requantization is just a saturating cast) — whereas
the bulk kernel's per-channel requantization of the same patch emits ladder
index 0 for channel 0: the two outputs differ. -/
theorem thr_tail_skips_threshold_folding :
    (thrTail 4 4 0 9 thrC2State).imOut 9 = 4 ∧
    thrBulkVal thrC2State 4 0 0 = 0 ∧
    (thrTail 4 4 0 9 thrC2State).imOut 9 ≠ thrBulkVal thrC2State 4 0 0 := by
  decide
